import Mathlib

/-!
Verification of the garbage-truck VRP route planner.

Shallow embedding of the Python sources (`src/graph.py`, `src/astar.py`,
`src/greedy_init.py`, `src/two_opt.py`, `src/sa_optimizer.py`,
`src/vrp_solver.py`).

Modelling conventions:
* Python `float` inputs (coordinates, demands, capacities, weights,
  thresholds, temperatures, uniform random draws) are modelled as `ℚ`;
  every Python float literal is a rational, and the code performs only
  field operations on them before feeding them to `math.sqrt`.
* Distance values (outputs of `math.sqrt`, their sums and comparisons) are
  modelled in `EReal`; the value `⊤` models `float('inf')`, which
  `Graph.euclidean` returns for an unknown node id.
* Python `dict`s are modelled as insertion-ordered association lists
  (`List (String × α)`); `d[k] = v` is `updateA` (update in place if the
  key exists, else append), which matches CPython's ordered-dict
  semantics.  Python `set`s whose iteration order is unspecified are
  modelled as insertion-ordered lists of their elements.
* `while` loops are given an explicit fuel argument.
-/

/-- `d.get(k)` / `k in d` for an association list (first binding wins,
matching a Python dict where keys are unique). -/
def lookupA {α : Type} : List (String × α) → String → Option α
  | [], _ => none
  | (k', v) :: rest, k => if k' = k then some v else lookupA rest k

/-- `d[k] = v` on an insertion-ordered dict: replace in place if present,
else append. -/
def updateA {α : Type} : List (String × α) → String → α → List (String × α)
  | [], k, v => [(k, v)]
  | (k', v') :: rest, k, v =>
      if k' = k then (k, v) :: rest else (k', v') :: updateA rest k v

/-- Apply `f` to the value stored at `k` (no-op when absent). -/
def modifyA {α : Type} : List (String × α) → String → (α → α) → List (String × α)
  | [], _, _ => []
  | (k', v') :: rest, k, f =>
      if k' = k then (k', f v') :: rest else (k', v') :: modifyA rest k f

/-- Keys of an association list. -/
def keysA {α : Type} (l : List (String × α)) : List String := l.map Prod.fst

open Classical

/-! ## Graph model (`src/graph.py`) -/

/-- `Node` from `graph.py`: id, coordinates and an insertion-ordered
adjacency dict `{neighbor_id: distance}`. -/
structure GNode where
  id : String
  x : ℚ
  y : ℚ
  neighbors : List (String × ℚ)
deriving DecidableEq, Repr

/-- `Graph` from `graph.py`: a dict of nodes plus the set of edges stored
as order-independent pairs. -/
structure Graph where
  nodes : List (String × GNode)
  edges : List (String × String)
deriving DecidableEq, Repr

/-- `Graph()`. -/
def Graph.empty : Graph := { nodes := [], edges := [] }

/-- `Graph.add_node`: unconditionally stores a fresh node under `node_id`
(overwriting any existing binding — the source performs no duplicate
check). -/
def add_node (g : Graph) (node_id : String) (x y : ℚ) : Graph :=
  { g with nodes := updateA g.nodes node_id ⟨node_id, x, y, []⟩ }

/-- The order-independent edge key `tuple(sorted([id1, id2]))`. -/
def edgeKey (a b : String) : String × String := if a ≤ b then (a, b) else (b, a)

/-- `Graph.add_edge`: raises `ValueError("Node tidak ditemukan")` when
either endpoint is unknown, otherwise inserts the weight into both
adjacency dicts and records the sorted pair in the edge set. -/
def add_edge (g : Graph) (node_id1 node_id2 : String) (distance : ℚ) :
    Except String Graph :=
  if lookupA g.nodes node_id1 = none ∨ lookupA g.nodes node_id2 = none then
    .error "Node tidak ditemukan"
  else
    let upd1 : GNode → GNode :=
      fun n => { n with neighbors := updateA n.neighbors node_id2 distance }
    let upd2 : GNode → GNode :=
      fun n => { n with neighbors := updateA n.neighbors node_id1 distance }
    let g1 : Graph := { g with nodes := modifyA g.nodes node_id1 upd1 }
    let g2 : Graph := { g1 with nodes := modifyA g1.nodes node_id2 upd2 }
    let e := edgeKey node_id1 node_id2
    .ok { g2 with edges := if e ∈ g2.edges then g2.edges else g2.edges ++ [e] }

/-- `Graph.get_neighbors`: the adjacency dict of a node, `{}` for an
unknown id. -/
def get_neighbors (g : Graph) (node_id : String) : List (String × ℚ) :=
  match lookupA g.nodes node_id with
  | none => []
  | some n => n.neighbors

/-- `Graph.euclidean`: straight-line distance between two registered
nodes, `float('inf')` (modelled as `⊤ : EReal`) when either id is
unknown. -/
noncomputable def euclidean (g : Graph) (node_id1 node_id2 : String) : EReal :=
  match lookupA g.nodes node_id1, lookupA g.nodes node_id2 with
  | some n1, some n2 =>
      ((Real.sqrt (((n1.x : ℝ) - (n2.x : ℝ)) * ((n1.x : ℝ) - (n2.x : ℝ)) +
        ((n1.y : ℝ) - (n2.y : ℝ)) * ((n1.y : ℝ) - (n2.y : ℝ))) : ℝ) : EReal)
  | _, _ => ⊤

/-! ## A* pathfinding (`src/astar.py`) -/

/-- A `heapq` entry `(f_score, counter, node_id)`. -/
abbrev HeapEntry : Type := EReal × ℕ × String

/-- Python's tuple order on heap entries, restricted to `(f, counter)`:
counters are unique, so `heapq` never compares the node ids. -/
def heapLe (e1 e2 : HeapEntry) : Prop :=
  e1.1 < e2.1 ∨ (e1.1 = e2.1 ∧ e1.2.1 ≤ e2.2.1)

/-- `heapq.heappop`: remove the least entry under the tuple order.  The
remaining entries are kept as a plain list; only their multiset matters
for subsequent pops. -/
noncomputable def popMin : List HeapEntry → Option (HeapEntry × List HeapEntry)
  | [] => none
  | e :: rest =>
      match popMin rest with
      | none => some (e, [])
      | some (m, rem) => if heapLe e m then some (e, rest) else some (m, e :: rem)

/-- The mutable state of `astar`'s search loop. -/
structure AState where
  openSet : List HeapEntry
  counter : ℕ
  gScore : List (String × EReal)
  fScore : List (String × EReal)
  cameFrom : List (String × String)
  closed : List String

/-- `reconstruct_path`, fuelled.  The accumulator holds the reversed
prefix, so the source's final `path.reverse()` is built in: starting from
`[current_id]` the loop prepends each predecessor. -/
def reconstruct_path (came_from : List (String × String)) :
    ℕ → String → List String → List String
  | 0, _, acc => acc
  | fuel + 1, cur, acc =>
      match lookupA came_from cur with
      | none => acc
      | some prev => reconstruct_path came_from fuel prev (prev :: acc)

/-- The state update shared by both relaxation cases of `astar`
(`neighbor not in g_score` / `tentative_g < g_score[neighbor]`). -/
noncomputable def relaxPush (g : Graph) (goal cur nb : String) (tg : EReal)
    (st : AState) : AState :=
  let f : EReal := tg + euclidean g nb goal
  { st with
    cameFrom := updateA st.cameFrom nb cur
    gScore := updateA st.gScore nb tg
    fScore := updateA st.fScore nb f
    openSet := st.openSet ++ [(f, st.counter, nb)]
    counter := st.counter + 1 }

/-- One pass of `astar`'s `for neighbor_id, distance in neighbors` loop.
`g_score[current_id]` is always present when this executes (otherwise the
Python would raise `KeyError`); the `getD ⊤` default is never used. -/
noncomputable def relaxNeighbor (g : Graph) (goal cur : String) (st : AState)
    (nbw : String × ℚ) : AState :=
  if nbw.1 ∈ st.closed then st
  else
    let tg : EReal := (lookupA st.gScore cur).getD ⊤ + ((nbw.2 : ℝ) : EReal)
    match lookupA st.gScore nbw.1 with
    | none => relaxPush g goal cur nbw.1 tg st
    | some gnb => if tg < gnb then relaxPush g goal cur nbw.1 tg st else st

/-- The `while open_set:` loop of `astar`, fuelled.  `none` means the
fuel ran out (never reached from `astar`), `some none` is the `return
None` exit, `some (some p)` the found path. -/
noncomputable def astarLoop (g : Graph) (goal : String) :
    ℕ → AState → Option (Option (List String))
  | 0, _ => none
  | fuel + 1, st =>
      match popMin st.openSet with
      | none => some none
      | some (e, rest) =>
          let cur := e.2.2
          if cur ∈ st.closed then astarLoop g goal fuel { st with openSet := rest }
          else
            let st1 : AState := { st with openSet := rest, closed := st.closed ++ [cur] }
            if cur = goal then
              some (some (reconstruct_path st1.cameFrom st1.closed.length cur [cur]))
            else
              astarLoop g goal fuel
                ((get_neighbors g cur).foldl (relaxNeighbor g goal cur) st1)

/-- Fuel that dominates the loop's decreasing measure
`|open_set| + Σ_{v ∉ closed} (deg v + 1)`. -/
def astarFuel (g : Graph) : ℕ :=
  2 + g.nodes.length + (g.nodes.map (fun p => p.2.neighbors.length)).sum

/-- `astar` from `astar.py`. -/
noncomputable def astar (g : Graph) (start_id goal_id : String) : Option (List String) :=
  if lookupA g.nodes start_id = none ∨ lookupA g.nodes goal_id = none then none
  else if start_id = goal_id then some [start_id]
  else
    let st0 : AState :=
      { openSet := [((0 : EReal), 0, start_id)]
        counter := 1
        gScore := [(start_id, (0 : EReal))]
        fScore := [(start_id, euclidean g start_id goal_id)]
        cameFrom := []
        closed := [] }
    match astarLoop g goal_id (astarFuel g) st0 with
    | some r => r
    | none => none

/-- Sum of consecutive Euclidean distances along a list of ids (the loop
body shared by `compute_path_distance`, `calculate_route_distance` and
`evaluate_routes_simple`). -/
noncomputable def pairSum (g : Graph) : List String → EReal
  | [] => 0
  | [_] => 0
  | a :: b :: rest => euclidean g a b + pairSum g (b :: rest)

/-- `compute_path_distance` from `astar.py`. -/
noncomputable def compute_path_distance (g : Graph) (path : List String) : EReal :=
  if path.length < 2 then 0 else pairSum g path

/-! ## Greedy construction (`src/greedy_init.py`) -/

/-- `TPS` (temporary disposal site): a demand site. -/
structure TPS where
  id : String
  node_id : String
  demand : ℚ
deriving DecidableEq, Repr

/-- `Truck`: a vehicle with a capacity. -/
structure Truck where
  id : String
  capacity : ℚ
deriving DecidableEq, Repr

/-- `{tps.node_id: tps for tps in tps_list}`. -/
def tpsDict (tps_list : List TPS) : List (String × TPS) :=
  tps_list.foldl (fun acc t => updateA acc t.node_id t) []

/-- Keep-first deduplication, modelling `set(tps.node_id for tps in
tps_list)` as the insertion-ordered list of distinct ids (CPython set
iteration order is unspecified; this model pins it). -/
def dedupFirst (seen : List String) : List String → List String
  | [] => []
  | a :: rest =>
      if a ∈ seen then dedupFirst seen rest else a :: dedupFirst (a :: seen) rest

/-- The `for tps_node_id in remaining_tps:` nearest-feasible scan.
`best` is the pair `(best_distance, best_tps_node)`, starting from
`(float('inf'), None)`. -/
noncomputable def selectBest (g : Graph) (tps_dict : List (String × TPS))
    (current_location : String) (current_capacity : ℚ) :
    List String → EReal × Option String → EReal × Option String
  | [], best => best
  | tps_node :: rest, best =>
      let tps := (lookupA tps_dict tps_node).getD ⟨"", "", 0⟩
      if tps.demand > current_capacity then
        selectBest g tps_dict current_location current_capacity rest best
      else
        let dist := euclidean g current_location tps_node
        if dist < best.1 then
          selectBest g tps_dict current_location current_capacity rest (dist, some tps_node)
        else
          selectBest g tps_dict current_location current_capacity rest best

/-- The per-truck `while remaining_tps:` loop, fuelled by the size of
`remaining_tps` (each pass removes one site or breaks).  Returns the
route built for this truck and the leftover sites. -/
noncomputable def truckLoop (g : Graph) (tps_dict : List (String × TPS)) :
    ℕ → String → ℚ → List String → List String → List String × List String
  | 0, _, _, remaining, route => (route, remaining)
  | fuel + 1, current_location, current_capacity, remaining, route =>
      match remaining with
      | [] => (route, remaining)
      | _ :: _ =>
          match (selectBest g tps_dict current_location current_capacity remaining (⊤, none)).2 with
          | none => (route, remaining)
          | some best =>
              let d := ((lookupA tps_dict best).getD ⟨"", "", 0⟩).demand
              truckLoop g tps_dict fuel best (current_capacity - d)
                (remaining.erase best) (route ++ [best])

/-- The fallback scan `for truck in trucks:` inside the leftover pass:
first truck whose `truck_remaining_capacity` entry fits the demand. -/
def findTruck (trc : List (String × ℚ)) (dem : ℚ) : List Truck → Option String
  | [] => none
  | t :: rest => if (lookupA trc t.id).getD 0 ≥ dem then some t.id else findTruck trc dem rest

/-- The leftover pass of `greedy_initial_solution` (lines 96–105):
each still-unassigned site goes to the first truck whose
`truck_remaining_capacity` entry fits it; that dict was never updated by
the main loop, so these are the original capacities minus only earlier
fallback assignments.  A site fitting no truck is silently dropped. -/
def fallbackAssign (tps_dict : List (String × TPS)) (trucks : List Truck) :
    List String → List (String × ℚ) → List (String × List String) →
    List (String × ℚ) × List (String × List String)
  | [], trc, routes => (trc, routes)
  | tps_node :: rest, trc, routes =>
      let dem := ((lookupA tps_dict tps_node).getD ⟨"", "", 0⟩).demand
      match findTruck trc dem trucks with
      | none => fallbackAssign tps_dict trucks rest trc routes
      | some tid =>
          fallbackAssign tps_dict trucks rest
            (updateA trc tid ((lookupA trc tid).getD 0 - dem))
            (modifyA routes tid (fun r => r ++ [tps_node]))

/-- One iteration of the outer `for truck in trucks:` loop: run the
per-truck while loop from the depot with this truck's
`truck_remaining_capacity` entry, append the result to its route. -/
noncomputable def greedyStep (g : Graph) (tps_dict : List (String × TPS))
    (trc0 : List (String × ℚ)) (depot_id : String)
    (st : List String × List (String × List String)) (truck : Truck) :
    List String × List (String × List String) :=
  let cap := (lookupA trc0 truck.id).getD 0
  let res := truckLoop g tps_dict st.1.length depot_id cap st.1 []
  (res.2, modifyA st.2 truck.id (fun r => r ++ res.1))

/-- `greedy_initial_solution` from `greedy_init.py`. -/
noncomputable def greedy_initial_solution (g : Graph) (tps_list : List TPS)
    (depot_id : String) (trucks : List Truck) : List (String × List String) :=
  let routes0 : List (String × List String) :=
    trucks.foldl (fun acc t => updateA acc t.id []) []
  let remaining0 : List String := dedupFirst [] (tps_list.map TPS.node_id)
  let tps_dict := tpsDict tps_list
  let trc0 : List (String × ℚ) :=
    trucks.foldl (fun acc t => updateA acc t.id t.capacity) []
  let mainRes := trucks.foldl (greedyStep g tps_dict trc0 depot_id) (remaining0, routes0)
  (fallbackAssign tps_dict trucks mainRes.1 trc0 mainRes.2).2

/-- `format_routes_with_depot`. -/
def format_routes_with_depot (routes : List (String × List String)) (depot_id : String) :
    List (String × List String) :=
  routes.map (fun p => (p.1, depot_id :: p.2 ++ [depot_id]))

/-! ## 2-opt (`src/two_opt.py`) -/

/-- `best_route[i:j+1] = reversed(best_route[i:j+1])`. -/
def reverseSegment (route : List String) (i j : ℕ) : List String :=
  route.take i ++ ((route.drop i).take (j + 1 - i)).reverse ++ route.drop (j + 1)

/-- Inner `for j in range(i+1, len-1)` scan: first move whose cost
reduction exceeds the threshold. -/
noncomputable def scanJ (g : Graph) (θ : ℚ) (route : List String) (i : ℕ) :
    List ℕ → Option (List String)
  | [] => none
  | j :: js =>
      let cur := euclidean g (route.getD (i - 1) "") (route.getD i "") +
                 euclidean g (route.getD j "") (route.getD (j + 1) "")
      let nw := euclidean g (route.getD (i - 1) "") (route.getD j "") +
                euclidean g (route.getD i "") (route.getD (j + 1) "")
      if cur - nw > ((θ : ℝ) : EReal) then some (reverseSegment route i j)
      else scanJ g θ route i js

/-- Outer `for i in range(1, len-2)` scan. -/
noncomputable def scanI (g : Graph) (θ : ℚ) (route : List String) :
    List ℕ → Option (List String)
  | [] => none
  | i :: irest =>
      match scanJ g θ route i (List.range' (i + 1) (route.length - 1 - (i + 1))) with
      | some r => some r
      | none => scanI g θ route irest

/-- One full scan of `two_opt_single_route`'s `while` body: the first
improving 2-opt move applied, or `none` when no pair improves by more
than the threshold. -/
noncomputable def twoOptScan (g : Graph) (θ : ℚ) (route : List String) :
    Option (List String) :=
  scanI g θ route (List.range' 1 (route.length - 2 - 1))

/-- The `while improved and iteration < max_iterations:` loop.  The
`Bool` result is `true` when the run ended because a full scan found no
improving move, `false` when `max_iterations` was exhausted. -/
noncomputable def twoOptLoop (g : Graph) (θ : ℚ) : ℕ → List String → List String × Bool
  | 0, route => (route, false)
  | fuel + 1, route =>
      match twoOptScan g θ route with
      | none => (route, true)
      | some r => twoOptLoop g θ fuel r

/-- `two_opt_single_route` from `two_opt.py`. -/
noncomputable def two_opt_single_route (g : Graph) (route : List String)
    (improvement_threshold : ℚ) (max_iterations : ℕ) : List String :=
  (twoOptLoop g improvement_threshold max_iterations route).1

/-- `calculate_route_distance` from `two_opt.py`. -/
noncomputable def calculate_route_distance (g : Graph) (route : List String) : EReal :=
  if route.length < 2 then 0 else pairSum g route

/-- `calculate_total_distance` from `two_opt.py`. -/
noncomputable def calculate_total_distance (g : Graph)
    (routes : List (String × List String)) : EReal :=
  (routes.map (fun p => calculate_route_distance g p.2)).sum

/-! ## Simulated annealing (`src/sa_optimizer.py`) -/

/-- `create_route_from_tps_order`. -/
def create_route_from_tps_order (tps_order : List String) (depot_id : String) :
    List String :=
  depot_id :: tps_order ++ [depot_id]

/-- `sorted(routes.keys())`: with the keys pairwise distinct (a dict
invariant) the sorted permutation is unique, so any sorting algorithm
models Python's `sorted`. -/
def sortedKeys {α : Type} (routes : List (String × α)) : List String :=
  List.insertionSort (fun a b : String => a ≤ b) (keysA routes)

/-- One step of `routes_to_tps_order`'s loop over the sorted truck ids. -/
def rtpoStep (routes : List (String × List String)) (depot_id : String)
    (acc : List String × List (ℕ × ℕ)) (truck_id : String) :
    List String × List (ℕ × ℕ) :=
  let route := (lookupA routes truck_id).getD []
  let all := acc.1 ++ route.filter (fun n => n ≠ depot_id)
  (all, acc.2 ++ [(acc.1.length, all.length)])

/-- `routes_to_tps_order`: flatten the solution (skipping the depot) in
sorted-truck-id order, recording each truck's `(start, end)` slice. -/
def routes_to_tps_order (routes : List (String × List String)) (depot_id : String) :
    List String × List (ℕ × ℕ) :=
  (sortedKeys routes).foldl (rtpoStep routes depot_id) ([], [])

/-- `tps_order_to_routes`: rebuild the per-truck depot-framed routes from
the flattened order and the recorded slices. -/
def tps_order_to_routes (tps_order : List String) (route_indices : List (ℕ × ℕ))
    (truck_ids : List String) (depot_id : String) : List (String × List String) :=
  (truck_ids.zip route_indices).foldl
    (fun acc p =>
      updateA acc p.1
        (depot_id :: (tps_order.drop p.2.1).take (p.2.2 - p.2.1) ++ [depot_id])) []

/-- `tps_order[idx1], tps_order[idx2] = tps_order[idx2], tps_order[idx1]`. -/
def swapAt (l : List String) (i j : ℕ) : List String :=
  (l.set i (l.getD j "")).set j (l.getD i "")

/-- `tps_node = tps_order.pop(idx); tps_order.insert(new_pos, tps_node)`. -/
def popInsert (l : List String) (idx new_pos : ℕ) : List String :=
  (l.eraseIdx idx).insertIdx new_pos (l.getD idx "")

/-- `generate_neighbor_solution`.  `u` models the `random.random()` draw
and `i1 i2` the two `randint(0, len-1)` draws; reducing an arbitrary
natural mod `len` realises exactly the in-range values. -/
def generate_neighbor_solution (routes : List (String × List String))
    (depot_id : String) (u : ℚ) (i1 i2 : ℕ) : List (String × List String) :=
  let truck_ids := sortedKeys routes
  let flat := routes_to_tps_order routes depot_id
  let n := flat.1.length
  let tps_order :=
    if u < 1/2 ∧ 2 ≤ n then
      let idx1 := i1 % n
      let idx2 := i2 % n
      if idx1 ≠ idx2 then swapAt flat.1 idx1 idx2 else flat.1
    else if 2 ≤ n then
      let idx := i1 % n
      let new_pos := i2 % n
      if idx ≠ new_pos then popInsert flat.1 idx new_pos else flat.1
    else flat.1
  tps_order_to_routes tps_order flat.2 truck_ids depot_id

/-- The mutable state of the annealing loop, plus the positions of the
next unconsumed draws of the two modelled random streams. -/
structure SAState where
  currentRoutes : List (String × List String)
  currentCost : EReal
  bestRoutes : List (String × List String)
  bestCost : EReal
  uPos : ℕ
  iPos : ℕ

/-- `math.exp(-delta / temperature)` on an `EReal` cost difference.
`delta = ⊥` models Python's `inf - inf = nan` corner and a non-positive
`temperature` never reaches this code (the loop guard is
`temperature > t_min`); both get harmless values no claim depends on. -/
noncomputable def expNegDiv (delta : EReal) (temperature : ℚ) : EReal :=
  if delta = ⊥ then (if 0 < temperature then ⊤ else 0)
  else if delta = ⊤ then (if 0 < temperature then 0 else ⊤)
  else ((Real.exp (-(delta.toReal / (temperature : ℝ))) : ℝ) : EReal)

/-- The accepted-neighbor update: move to the neighbor, and refresh the
best solution when strictly better. -/
noncomputable def saAccept (nbr : List (String × List String)) (nbrCost : EReal)
    (uPos iPos : ℕ) (st : SAState) : SAState :=
  let st1 := { st with currentRoutes := nbr, currentCost := nbrCost,
                       uPos := uPos, iPos := iPos }
  if nbrCost < st.bestCost then { st1 with bestRoutes := nbr, bestCost := nbrCost }
  else st1

/-- One iteration of the inner `for _ in range(iter_per_temp):` loop.
The acceptance draw is consumed only when `delta >= 0` (Python's `or`
short-circuits). -/
noncomputable def saTrial (g : Graph) (depot_id : String) (temperature : ℚ)
    (uS : ℕ → ℚ) (iS : ℕ → ℕ) (st : SAState) : SAState :=
  let nbr := generate_neighbor_solution st.currentRoutes depot_id
               (uS st.uPos) (iS st.iPos) (iS (st.iPos + 1))
  let nbrCost := calculate_total_distance g nbr
  let delta := nbrCost - st.currentCost
  if delta < 0 then saAccept nbr nbrCost (st.uPos + 1) (st.iPos + 2) st
  else if ((uS (st.uPos + 1) : ℝ) : EReal) < expNegDiv delta temperature then
    saAccept nbr nbrCost (st.uPos + 2) (st.iPos + 2) st
  else { st with uPos := st.uPos + 2, iPos := st.iPos + 2 }

/-- The inner loop, `iter_per_temp` trials at one temperature. -/
noncomputable def saInnerLoop (g : Graph) (depot_id : String) (temperature : ℚ)
    (uS : ℕ → ℚ) (iS : ℕ → ℕ) : ℕ → SAState → SAState
  | 0, st => st
  | n + 1, st => saInnerLoop g depot_id temperature uS iS n
      (saTrial g depot_id temperature uS iS st)

/-- The outer `while temperature > t_min:` loop, fuelled. -/
noncomputable def saOuterLoop (g : Graph) (depot_id : String) (cooling_rate : ℚ)
    (iter_per_temp : ℕ) (t_min : ℚ) (uS : ℕ → ℚ) (iS : ℕ → ℕ) :
    ℕ → ℚ → SAState → SAState
  | 0, _, st => st
  | fuel + 1, temperature, st =>
      if temperature > t_min then
        saOuterLoop g depot_id cooling_rate iter_per_temp t_min uS iS fuel
          (temperature * cooling_rate)
          (saInnerLoop g depot_id temperature uS iS iter_per_temp st)
      else st

/-- `simulated_annealing_optimize`, fuelled on the number of cooling
steps; every property proved below holds for every fuel. -/
noncomputable def simulated_annealing_optimize (g : Graph)
    (routes : List (String × List String)) (depot_id : String)
    (t0 cooling_rate : ℚ) (iter_per_temp : ℕ) (t_min : ℚ)
    (uS : ℕ → ℚ) (iS : ℕ → ℕ) (fuel : ℕ) : List (String × List String) :=
  let c0 := calculate_total_distance g routes
  (saOuterLoop g depot_id cooling_rate iter_per_temp t_min uS iS fuel t0
    { currentRoutes := routes, currentCost := c0,
      bestRoutes := routes, bestCost := c0, uPos := 0, iPos := 0 }).bestRoutes

/-! ## Facade (`src/vrp_solver.py`) -/

/-- One expanded segment: the A* path between consecutive stops, with the
two-element direct fallback when no path is found. -/
noncomputable def segFor (g : Graph) (a b : String) : List String :=
  match astar g a b with
  | none => [a, b]
  | some p => p

/-- All expanded segments of one route (`for i in range(len(route)-1)`). -/
noncomputable def segsOf (g : Graph) (route : List String) : List (List String) :=
  (route.zip route.tail).map (fun p => segFor g p.1 p.2)

/-- `VRPSolver.compute_full_paths`. -/
noncomputable def compute_full_paths (g : Graph)
    (routes : List (String × List String)) : List (String × List (List String)) :=
  routes.map (fun p => (p.1, segsOf g p.2))

/-- The flattening loop of `compute_full_paths_as_single_list`: the first
segment whole, every later segment without its first element. -/
def flattenSegs : List (List String) → List String
  | [] => []
  | s :: rest => s ++ (rest.map List.tail).flatten

/-- `VRPSolver.compute_full_paths_as_single_list`. -/
noncomputable def compute_full_paths_as_single_list (g : Graph)
    (routes : List (String × List String)) : List (String × List String) :=
  (compute_full_paths g routes).map (fun p => (p.1, flattenSegs p.2))

/-- The metrics dict returned by the two `evaluate_routes…` methods.
`num_stops` is an integer because `len(path) - 2` can be negative. -/
structure Metrics where
  total_distance : EReal
  distances_per_truck : List (String × EReal)
  num_trucks : ℕ
  num_stops : ℤ

/-- `VRPSolver.evaluate_routes` (full-path variant). -/
noncomputable def evaluate_routes (g : Graph)
    (full_paths : List (String × List String)) : Metrics :=
  { total_distance := (full_paths.map (fun p => compute_path_distance g p.2)).sum
    distances_per_truck := full_paths.map (fun p => (p.1, compute_path_distance g p.2))
    num_trucks := full_paths.length
    num_stops := (full_paths.map (fun p => (p.2.length : ℤ) - 2)).sum }

/-- `VRPSolver.evaluate_routes_simple` (direct-Euclidean variant). -/
noncomputable def evaluate_routes_simple (g : Graph) (depot_id : String)
    (routes : List (String × List String)) : Metrics :=
  { total_distance := (routes.map (fun p => pairSum g p.2)).sum
    distances_per_truck := routes.map (fun p => (p.1, pairSum g p.2))
    num_trucks := routes.length
    num_stops := (routes.map (fun p => ((p.2.filter (fun n => n ≠ depot_id)).length : ℤ))).sum }

/-! ## Auxiliary predicates used by the claims -/

/-- Graph states reachable by sequences of `add_node` / `add_edge`; a
raising `add_edge` leaves the state unchanged, so closing under
successful calls captures every reachable state. -/
inductive Reachable : Graph → Prop
  | empty : Reachable Graph.empty
  | node {g : Graph} (node_id : String) (x y : ℚ) :
      Reachable g → Reachable (add_node g node_id x y)
  | edge {g g' : Graph} (node_id1 node_id2 : String) (distance : ℚ) :
      Reachable g → add_edge g node_id1 node_id2 distance = .ok g' → Reachable g'

/-- Reachability restricted to runs that never call `add_node` on an
already-registered id. -/
inductive ReachableFresh : Graph → Prop
  | empty : ReachableFresh Graph.empty
  | node {g : Graph} (node_id : String) (x y : ℚ) :
      ReachableFresh g → lookupA g.nodes node_id = none →
      ReachableFresh (add_node g node_id x y)
  | edge {g g' : Graph} (node_id1 node_id2 : String) (distance : ℚ) :
      ReachableFresh g → add_edge g node_id1 node_id2 distance = .ok g' →
      ReachableFresh g'

/-- A depot-framed route: the depot prepended and appended to a
depot-free interior. -/
def DepotFramed (depot_id : String) (route : List String) : Prop :=
  ∃ interior, route = depot_id :: interior ++ [depot_id] ∧ depot_id ∉ interior

/-- The number of stops of a route (its non-depot entries). -/
def countStops (depot_id : String) (route : List String) : ℕ :=
  (route.filter (fun n => n ≠ depot_id)).length

/-- An edge of the adjacency structure: `b` appears in `a`'s neighbor
dict with weight `w`. -/
def adjacent (g : Graph) (a b : String) (w : ℚ) : Prop :=
  ∃ n, lookupA g.nodes a = some n ∧ lookupA n.neighbors b = some w

/-- A genuine path of the graph from `s` to `t`: nonempty, correct
endpoints, every consecutive pair an adjacency edge. -/
def isPathFrom (g : Graph) (s t : String) (p : List String) : Prop :=
  p.head? = some s ∧ p.getLast? = some t ∧
    List.Chain' (fun a b => ∃ w, adjacent g a b w) p

/-- Index of the first occurrence of a key in a list (`l.length` when
absent); used to rank nodes by closing order in the A* invariant. -/
def idxA : List String → String → ℕ
  | [], _ => 0
  | a :: l, k => if a = k then 0 else idxA l k + 1

/-- The invariant of `astar`'s search loop (start node `s`): `came_from`
entries are graph edges pointing to strictly-earlier-closed nodes, every
scored node other than `s` has a predecessor, open entries are scored,
and the closed list is duplicate-free and eventually contains `s`. -/
def AInv (g : Graph) (s : String) (st : AState) : Prop :=
  (∀ k v, lookupA st.cameFrom k = some v →
      (∃ w, adjacent g v k w) ∧ v ∈ st.closed ∧
        (k ∈ st.closed → idxA st.closed v < idxA st.closed k)) ∧
  (∀ k, k ∈ st.closed → lookupA st.gScore k ≠ none) ∧
  (∀ k, lookupA st.gScore k ≠ none → k = s ∨ lookupA st.cameFrom k ≠ none) ∧
  lookupA st.cameFrom s = none ∧
  (∀ e ∈ st.openSet, lookupA st.gScore e.2.2 ≠ none) ∧
  st.closed.Nodup ∧
  (s ∈ st.closed ∨ (st.closed = [] ∧ ∀ e ∈ st.openSet, e.2.2 = s))

/-- The weight of a traversed edge (missing edges get `⊤`; on a genuine
path this default never fires). -/
noncomputable def edgeWeight (g : Graph) (a b : String) : EReal :=
  match lookupA g.nodes a with
  | none => ⊤
  | some n =>
      match lookupA n.neighbors b with
      | none => ⊤
      | some w => ((w : ℝ) : EReal)

/-- Total cost of a path: the sum of traversed edge weights. -/
noncomputable def pathCost (g : Graph) : List String → EReal
  | [] => 0
  | [_] => 0
  | a :: b :: rest => edgeWeight g a b + pathCost g (b :: rest)

/-- The true shortest-path cost from `s` to `t`: the infimum of the costs
of all genuine paths (in the complete lattice `EReal`). -/
noncomputable def shortestCost (g : Graph) (s t : String) : EReal :=
  sInf (Set.image (pathCost g) { p | isPathFrom g s t p })

/-- Total demand of a list of demand sites. -/
def totalDemand (tps_list : List TPS) : ℚ := (tps_list.map TPS.demand).sum

/-- Total capacity of a fleet. -/
def totalCapacity (trucks : List Truck) : ℚ := (trucks.map Truck.capacity).sum

/-- Sum of the demands of the sites on a route (ids looked up in the
site list). -/
def routeDemand (tps_list : List TPS) (route : List String) : ℚ :=
  (route.map (fun n => ((lookupA (tpsDict tps_list) n).getD ⟨"", "", 0⟩).demand)).sum

/-- The depot-free interior that `routes_to_tps_order` extracts for one
truck (specification helper). -/
def interiorOf (routes : List (String × List String)) (depot_id : String)
    (truck_id : String) : List String :=
  ((lookupA routes truck_id).getD []).filter (fun n => n ≠ depot_id)

/-- Cumulative `(start, end)` index ranges of a list of segments
(specification helper mirroring `route_indices`). -/
def cumIdx (ofs : ℕ) : List (List String) → List (ℕ × ℕ)
  | [] => []
  | seg :: rest => (ofs, ofs + seg.length) :: cumIdx (ofs + seg.length) rest

/-- First test graph: nodes `A`, `B`. -/
def g8a : Graph := add_node (add_node Graph.empty "A" 0 0) "B" 1 0

/-- `g8a` plus the symmetric edge `A – B` of weight 1. -/
def g8b : Graph := ((add_edge g8a "A" "B" 1).toOption).getD Graph.empty

/-- `g8b` after re-adding the existing id `A`: the overwrite resets `A`'s
adjacency while `B` still lists `A`. -/
def g8c : Graph := add_node g8b "A" 5 5

/-- Concrete two-truck depot-framed solution used by witnesses. -/
def c5routes : List (String × List String) :=
  [("T1", ["D", "A", "D"]), ("T2", ["D", "B", "D"])]

/-- `add_edge` specialised to the success case (the graphs below only
use legal insertions). -/
def addEdgeD (g : Graph) (a b : String) (w : ℚ) : Graph :=
  ((add_edge g a b w).toOption).getD g

/-- Two-node graph with one edge, used by the C2 witness. -/
def gC2w : Graph :=
  addEdgeD (add_node (add_node Graph.empty "a" 0 0) "b" 3 4) "a" "b" 5

/-- Counterexample graph for C2: collinear nodes `G (0,0)`, `S (10,0)`,
`A (11,0)`; edge weights `S–G = 10`, `S–A = 1`, `A–G = 1/2`.  The
Euclidean heuristic from `A` to `G` (11) grossly overestimates the true
remaining cost (1/2), so A* closes `G` via the direct edge. -/
def gCE : Graph :=
  addEdgeD (addEdgeD (addEdgeD
    (add_node (add_node (add_node Graph.empty "S" 10 0) "A" 11 0) "G" 0 0)
    "S" "G" 10) "S" "A" 1) "A" "G" (1/2)

/-- Collinear instance for the greedy generator: depot at the origin,
three sites one, two and three units away. -/
def gC1 : Graph :=
  add_node (add_node (add_node (add_node Graph.empty "depot" 0 0)
    "s1" 1 0) "s2" 2 0) "s3" 3 0

/-- Three sites of demand 6 each (total 18). -/
def tpsC1 : List TPS := [⟨"p1", "s1", 6⟩, ⟨"p2", "s2", 6⟩, ⟨"p3", "s3", 6⟩]

/-- Two trucks of capacity 10 each (total 20). -/
def trucksC1 : List Truck := [⟨"t1", 10⟩, ⟨"t2", 10⟩]

-- ===== THEOREMS =====

theorem lookupA_updateA_self {α : Type} (l : List (String × α)) (k : String) (v : α) :
    lookupA (updateA l k v) k = some v := by
  induction l with
  | nil => simp [updateA, lookupA]
  | cons hd tl ih =>
      obtain ⟨k', v'⟩ := hd
      by_cases h : k' = k
      · simp [updateA, h, lookupA]
      · simp [updateA, h, lookupA, ih]

theorem lookupA_updateA_ne {α : Type} (l : List (String × α)) (k k' : String) (v : α)
    (h : k ≠ k') : lookupA (updateA l k v) k' = lookupA l k' := by
  induction l with
  | nil => simp [updateA, lookupA, h]
  | cons hd tl ih =>
      obtain ⟨k₀, v₀⟩ := hd
      by_cases h₀ : k₀ = k
      · subst h₀
        simp [updateA, lookupA, h]
      · simp [updateA, h₀, lookupA, ih]

theorem lookupA_isSome_updateA {α : Type} (l : List (String × α)) (k k' : String) (v : α)
    (h : lookupA l k' ≠ none) : lookupA (updateA l k v) k' ≠ none := by
  by_cases hk : k = k'
  · subst hk; simp [lookupA_updateA_self]
  · rwa [lookupA_updateA_ne l k k' v hk]

theorem lookupA_modifyA {α : Type} (l : List (String × α)) (k k' : String) (f : α → α) :
    lookupA (modifyA l k f) k' =
      if k = k' then (lookupA l k').map f else lookupA l k' := by
  induction l with
  | nil => simp [modifyA, lookupA]
  | cons hd tl ih =>
      obtain ⟨k₀, v₀⟩ := hd
      by_cases h₀ : k₀ = k
      · subst h₀
        by_cases h1 : k₀ = k'
        · subst h1; simp [modifyA, lookupA]
        · simp [modifyA, lookupA, h1, ih]
      · by_cases h1 : k₀ = k'
        · subst h1
          have h₀' : k ≠ k₀ := fun hh => h₀ hh.symm
          simp [modifyA, h₀, lookupA, h₀']
        · simp [modifyA, h₀, lookupA, h1, ih]

theorem lookupA_eq_none_of_not_mem_keys {α : Type} (l : List (String × α)) (k : String)
    (h : k ∉ keysA l) : lookupA l k = none := by
  induction l with
  | nil => simp [lookupA]
  | cons hd tl ih =>
      obtain ⟨k₀, v₀⟩ := hd
      simp only [keysA, List.map_cons, List.mem_cons] at h
      push_neg at h
      have h1 : k₀ ≠ k := fun hh => h.1 hh.symm
      simp [lookupA, h1, ih (by simpa [keysA] using h.2)]

theorem mem_keys_of_lookupA_eq_some {α : Type} {l : List (String × α)} {k : String} {v : α}
    (h : lookupA l k = some v) : k ∈ keysA l := by
  induction l with
  | nil => simp [lookupA] at h
  | cons hd tl ih =>
      obtain ⟨k₀, v₀⟩ := hd
      by_cases h₀ : k₀ = k
      · subst h₀; simp [keysA]
      · simp only [lookupA, if_neg h₀] at h
        simp [keysA, List.mem_cons]
        right
        simpa [keysA] using ih h

theorem keysA_updateA {α : Type} (l : List (String × α)) (k : String) (v : α) :
    keysA (updateA l k v) = if k ∈ keysA l then keysA l else keysA l ++ [k] := by
  induction l with
  | nil => simp [updateA, keysA]
  | cons hd tl ih =>
      obtain ⟨k₀, v₀⟩ := hd
      by_cases h₀ : k₀ = k
      · subst h₀; simp [updateA, keysA]
      · have h₀' : k ≠ k₀ := fun hh => h₀ hh.symm
        by_cases hmem : k ∈ keysA tl
        · rw [if_pos (by simp [keysA, List.mem_cons]; right; simpa [keysA] using hmem)]
          simp only [updateA, if_neg h₀, keysA, List.map_cons]
          rw [show keysA (updateA tl k v) = List.map Prod.fst (updateA tl k v) from rfl] at ih
          rw [show (keysA tl : List String) = List.map Prod.fst tl from rfl] at ih
          rw [ih]
          rw [if_pos (by simpa [keysA] using hmem)]
        · rw [if_neg (by simp [keysA, List.mem_cons]; exact ⟨h₀', by simpa [keysA] using hmem⟩)]
          simp only [updateA, if_neg h₀, keysA, List.map_cons]
          rw [show keysA (updateA tl k v) = List.map Prod.fst (updateA tl k v) from rfl] at ih
          rw [show (keysA tl : List String) = List.map Prod.fst tl from rfl] at ih
          rw [ih]
          rw [if_neg (by simpa [keysA] using hmem)]
          simp

theorem euclidean_comm (g : Graph) (a b : String) :
    euclidean g a b = euclidean g b a := by
  unfold euclidean
  cases lookupA g.nodes a with
  | none => cases lookupA g.nodes b <;> rfl
  | some n1 =>
      cases lookupA g.nodes b with
      | none => rfl
      | some n2 => simp only [EReal.coe_eq_coe_iff]; ring_nf

theorem euclidean_ne_bot (g : Graph) (a b : String) : euclidean g a b ≠ ⊥ := by
  unfold euclidean
  cases lookupA g.nodes a with
  | none => cases lookupA g.nodes b <;> simp
  | some n1 =>
      cases lookupA g.nodes b with
      | none => simp
      | some n2 => simp

theorem euclidean_nonneg (g : Graph) (a b : String) : 0 ≤ euclidean g a b := by
  unfold euclidean
  cases lookupA g.nodes a with
  | none => cases lookupA g.nodes b <;> simp
  | some n1 =>
      cases lookupA g.nodes b with
      | none => simp
      | some n2 =>
          simp only [← EReal.coe_zero, EReal.coe_le_coe_iff]
          exact Real.sqrt_nonneg _


/-! ### Graph-operation lemmas (C7, C8) -/

theorem add_edge_ok_elim {g g' : Graph} {a b : String} {w : ℚ}
    (h : add_edge g a b w = .ok g') :
    ¬(lookupA g.nodes a = none ∨ lookupA g.nodes b = none) ∧
      g'.nodes = modifyA (modifyA g.nodes a
        (fun n => { n with neighbors := updateA n.neighbors b w })) b
        (fun n => { n with neighbors := updateA n.neighbors a w }) := by
  by_cases hc : lookupA g.nodes a = none ∨ lookupA g.nodes b = none
  · rw [add_edge, if_pos hc] at h
    exact absurd h (by simp)
  · rw [add_edge, if_neg hc] at h
    refine ⟨hc, ?_⟩
    cases h
    rfl

theorem add_edge_error_iff (g : Graph) (a b : String) (w : ℚ) :
    (∃ e, add_edge g a b w = .error e) ↔
      (lookupA g.nodes a = none ∨ lookupA g.nodes b = none) := by
  constructor
  · rintro ⟨e, he⟩
    by_contra hc
    rw [add_edge, if_neg hc] at he
    exact absurd he (by simp)
  · intro hc
    exact ⟨"Node tidak ditemukan", by rw [add_edge, if_pos hc]⟩

theorem add_edge_ok_adjacent {g g' : Graph} {a b : String} {w : ℚ}
    (h : add_edge g a b w = .ok g') : adjacent g' a b w ∧ adjacent g' b a w := by
  obtain ⟨hc, hnodes⟩ := add_edge_ok_elim h
  push_neg at hc
  obtain ⟨ha, hb⟩ := hc
  obtain ⟨na, hna⟩ : ∃ na, lookupA g.nodes a = some na := by
    cases hh : lookupA g.nodes a with
    | none => exact absurd hh ha
    | some v => exact ⟨v, rfl⟩
  obtain ⟨nb, hnb⟩ : ∃ nb, lookupA g.nodes b = some nb := by
    cases hh : lookupA g.nodes b with
    | none => exact absurd hh hb
    | some v => exact ⟨v, rfl⟩
  by_cases hab : a = b
  · subst hab
    rw [hna] at hnb
    cases hnb
    have hga : lookupA g'.nodes a =
        some { na with neighbors := updateA (updateA na.neighbors a w) a w } := by
      rw [hnodes, lookupA_modifyA, if_pos rfl, lookupA_modifyA, if_pos rfl, hna]
      rfl
    constructor <;>
      exact ⟨_, hga, by rw [lookupA_updateA_self]⟩
  · have hga : lookupA g'.nodes a = some { na with neighbors := updateA na.neighbors b w } := by
      rw [hnodes, lookupA_modifyA, if_neg (fun hh => hab hh.symm), lookupA_modifyA,
        if_pos rfl, hna]
      rfl
    have hgb : lookupA g'.nodes b = some { nb with neighbors := updateA nb.neighbors a w } := by
      rw [hnodes, lookupA_modifyA, if_pos rfl, lookupA_modifyA, if_neg hab, hnb]
      rfl
    exact ⟨⟨_, hga, by rw [lookupA_updateA_self]⟩, ⟨_, hgb, by rw [lookupA_updateA_self]⟩⟩

theorem add_edge_ok_lookup_ne {g g' : Graph} {a b : String} {w : ℚ}
    (h : add_edge g a b w = .ok g') (x : String) (hxa : x ≠ a) (hxb : x ≠ b) :
    lookupA g'.nodes x = lookupA g.nodes x := by
  obtain ⟨-, hnodes⟩ := add_edge_ok_elim h
  rw [hnodes, lookupA_modifyA, if_neg (fun hh => hxb hh.symm), lookupA_modifyA,
    if_neg (fun hh => hxa hh.symm)]

theorem add_edge_ok_lookup_none {g g' : Graph} {a b : String} {w : ℚ}
    (h : add_edge g a b w = .ok g') (x : String) :
    lookupA g'.nodes x = none ↔ lookupA g.nodes x = none := by
  obtain ⟨-, hnodes⟩ := add_edge_ok_elim h
  rw [hnodes, lookupA_modifyA, lookupA_modifyA]
  by_cases hxb : b = x <;> by_cases hxa : a = x <;>
    simp [hxb, hxa, Option.map_eq_none]

theorem adjacent_of_add_edge {g g' : Graph} {a b : String} {w : ℚ}
    (h : add_edge g a b w = .ok g') {x y : String} {w' : ℚ}
    (hadj : adjacent g' x y w') :
    (x = a ∧ y = b ∧ w' = w) ∨ (x = b ∧ y = a ∧ w' = w) ∨
      (adjacent g x y w' ∧ ¬(x = a ∧ y = b) ∧ ¬(x = b ∧ y = a)) := by
  obtain ⟨hc, hnodes⟩ := add_edge_ok_elim h
  push_neg at hc
  obtain ⟨n', hn', hy⟩ := hadj
  rw [hnodes, lookupA_modifyA, lookupA_modifyA] at hn'
  by_cases hxb : b = x <;> by_cases hxa : a = x
  · -- x = a = b
    subst hxb; subst hxa
    rw [if_pos rfl, if_pos rfl] at hn'
    obtain ⟨nx, hnx⟩ : ∃ nx, lookupA g.nodes a = some nx := by
      cases hh : lookupA g.nodes a with
      | none => exact absurd hh hc.1
      | some v => exact ⟨v, rfl⟩
    rw [hnx] at hn'
    cases hn'
    simp only at hy
    by_cases hyx : y = a
    · subst hyx
      rw [lookupA_updateA_self] at hy
      cases hy
      exact Or.inl ⟨rfl, rfl, rfl⟩
    · rw [lookupA_updateA_ne _ _ _ _ (fun hh => hyx hh.symm),
        lookupA_updateA_ne _ _ _ _ (fun hh => hyx hh.symm)] at hy
      exact Or.inr (Or.inr ⟨⟨nx, hnx, hy⟩, fun hh => hyx hh.2, fun hh => hyx hh.2⟩)
  · -- x = b, x ≠ a
    subst hxb
    rw [if_pos rfl, if_neg hxa] at hn'
    obtain ⟨nx, hnx⟩ : ∃ nx, lookupA g.nodes b = some nx := by
      cases hh : lookupA g.nodes b with
      | none => exact absurd hh hc.2
      | some v => exact ⟨v, rfl⟩
    rw [hnx] at hn'
    cases hn'
    simp only at hy
    by_cases hya : y = a
    · subst hya
      rw [lookupA_updateA_self] at hy
      cases hy
      exact Or.inr (Or.inl ⟨rfl, rfl, rfl⟩)
    · rw [lookupA_updateA_ne _ _ _ _ (fun hh => hya hh.symm)] at hy
      exact Or.inr (Or.inr ⟨⟨nx, hnx, hy⟩,
        fun hh => hxa hh.1.symm, fun hh => hya hh.2⟩)
  · -- x = a, x ≠ b
    subst hxa
    rw [if_neg hxb, if_pos rfl] at hn'
    obtain ⟨nx, hnx⟩ : ∃ nx, lookupA g.nodes a = some nx := by
      cases hh : lookupA g.nodes a with
      | none => exact absurd hh hc.1
      | some v => exact ⟨v, rfl⟩
    rw [hnx] at hn'
    cases hn'
    simp only at hy
    by_cases hyb : y = b
    · subst hyb
      rw [lookupA_updateA_self] at hy
      cases hy
      exact Or.inl ⟨rfl, rfl, rfl⟩
    · rw [lookupA_updateA_ne _ _ _ _ (fun hh => hyb hh.symm)] at hy
      exact Or.inr (Or.inr ⟨⟨nx, hnx, hy⟩,
        fun hh => hyb hh.2, fun hh => hxb hh.1.symm⟩)
  · -- x ∉ {a, b}
    rw [if_neg hxb, if_neg hxa] at hn'
    exact Or.inr (Or.inr ⟨⟨n', hn', hy⟩,
      fun hh => hxa hh.1.symm, fun hh => hxb hh.1.symm⟩)

theorem adjacent_to_add_edge {g g' : Graph} {a b : String} {w : ℚ}
    (h : add_edge g a b w = .ok g') {x y : String} {w' : ℚ}
    (hadj : adjacent g x y w')
    (h1 : ¬(x = a ∧ y = b)) (h2 : ¬(x = b ∧ y = a)) : adjacent g' x y w' := by
  obtain ⟨-, hnodes⟩ := add_edge_ok_elim h
  obtain ⟨nx, hnx, hy⟩ := hadj
  by_cases hxb : b = x <;> by_cases hxa : a = x
  · subst hxb; subst hxa
    have hyx : y ≠ a := fun hh => h1 ⟨rfl, hh⟩
    refine ⟨{ nx with neighbors := updateA (updateA nx.neighbors a w) a w }, ?_, ?_⟩
    · rw [hnodes, lookupA_modifyA, if_pos rfl, lookupA_modifyA, if_pos rfl, hnx]
      rfl
    · simp only
      rw [lookupA_updateA_ne _ _ _ _ (fun hh => hyx hh.symm),
        lookupA_updateA_ne _ _ _ _ (fun hh => hyx hh.symm)]
      exact hy
  · subst hxb
    have hya : y ≠ a := fun hh => h2 ⟨rfl, hh⟩
    refine ⟨{ nx with neighbors := updateA nx.neighbors a w }, ?_, ?_⟩
    · rw [hnodes, lookupA_modifyA, if_pos rfl, lookupA_modifyA, if_neg hxa, hnx]
      rfl
    · simp only
      rw [lookupA_updateA_ne _ _ _ _ (fun hh => hya hh.symm)]
      exact hy
  · subst hxa
    have hyb : y ≠ b := fun hh => h1 ⟨rfl, hh⟩
    refine ⟨{ nx with neighbors := updateA nx.neighbors b w }, ?_, ?_⟩
    · rw [hnodes, lookupA_modifyA, if_neg hxb, lookupA_modifyA, if_pos rfl, hnx]
      rfl
    · simp only
      rw [lookupA_updateA_ne _ _ _ _ (fun hh => hyb hh.symm)]
      exact hy
  · refine ⟨nx, ?_, hy⟩
    rw [hnodes, lookupA_modifyA, if_neg hxb, lookupA_modifyA, if_neg hxa]
    exact hnx

theorem adjacent_of_add_node {g : Graph} {node_id : String} {x0 y0 : ℚ}
    {u v : String} {w : ℚ} (hadj : adjacent (add_node g node_id x0 y0) u v w) :
    u ≠ node_id ∧ adjacent g u v w := by
  obtain ⟨n, hn, hv⟩ := hadj
  by_cases hu : node_id = u
  · subst hu
    rw [show (add_node g node_id x0 y0).nodes =
        updateA g.nodes node_id ⟨node_id, x0, y0, []⟩ from rfl,
      lookupA_updateA_self] at hn
    cases hn
    exact absurd hv (by simp [lookupA])
  · rw [show (add_node g node_id x0 y0).nodes =
        updateA g.nodes node_id ⟨node_id, x0, y0, []⟩ from rfl,
      lookupA_updateA_ne _ _ _ _ hu] at hn
    exact ⟨fun hh => hu hh.symm, ⟨n, hn, hv⟩⟩

theorem adjacent_to_add_node {g : Graph} {node_id : String} {x0 y0 : ℚ}
    {u v : String} {w : ℚ} (hadj : adjacent g u v w) (hu : u ≠ node_id) :
    adjacent (add_node g node_id x0 y0) u v w := by
  obtain ⟨n, hn, hv⟩ := hadj
  refine ⟨n, ?_, hv⟩
  rw [show (add_node g node_id x0 y0).nodes =
      updateA g.nodes node_id ⟨node_id, x0, y0, []⟩ from rfl,
    lookupA_updateA_ne _ _ _ _ (fun hh => hu hh.symm)]
  exact hn

theorem reachableFresh_symm_aux {g : Graph} (h : ReachableFresh g) :
    (∀ a b w, adjacent g a b w → adjacent g b a w) ∧
      (∀ a b w, adjacent g a b w → lookupA g.nodes b ≠ none) := by
  induction h with
  | empty =>
      constructor <;> intro a b w hadj <;>
        · obtain ⟨n, hn, -⟩ := hadj
          exact absurd hn (by simp [Graph.empty, lookupA])
  | node node_id x y _ hfresh ih =>
      obtain ⟨ihsymm, ihreg⟩ := ih
      constructor
      · intro a b w hadj
        obtain ⟨-, hadj'⟩ := adjacent_of_add_node hadj
        have hsym := ihsymm a b w hadj'
        have hbreg := ihreg a b w hadj'
        have hb : b ≠ node_id := fun hh => hbreg (hh ▸ hfresh)
        exact adjacent_to_add_node hsym hb
      · intro a b w hadj
        obtain ⟨-, hadj'⟩ := adjacent_of_add_node hadj
        have hbreg := ihreg a b w hadj'
        exact lookupA_isSome_updateA _ _ _ _ hbreg
  | edge node_id1 node_id2 distance _ hok ih =>
      obtain ⟨ihsymm, ihreg⟩ := ih
      constructor
      · intro a b w hadj
        rcases adjacent_of_add_edge hok hadj with ⟨h1, h2, h3⟩ | ⟨h1, h2, h3⟩ | ⟨hadj', h1, h2⟩
        · subst h1; subst h2; subst h3
          exact (add_edge_ok_adjacent hok).2
        · subst h1; subst h2; subst h3
          exact (add_edge_ok_adjacent hok).1
        · have hsym := ihsymm a b w hadj'
          exact adjacent_to_add_edge hok hsym
            (fun hh => h2 ⟨hh.2, hh.1⟩) (fun hh => h1 ⟨hh.2, hh.1⟩)
      · intro a b w hadj
        rcases adjacent_of_add_edge hok hadj with ⟨h1, h2, h3⟩ | ⟨h1, h2, h3⟩ | ⟨hadj', h1, h2⟩
        · subst h2
          intro hh
          exact (add_edge_ok_elim hok).1 (Or.inr ((add_edge_ok_lookup_none hok _).mp hh))
        · subst h2
          intro hh
          exact (add_edge_ok_elim hok).1 (Or.inl ((add_edge_ok_lookup_none hok _).mp hh))
        · have hbreg := ihreg a b w hadj'
          intro hh
          exact hbreg ((add_edge_ok_lookup_none hok _).mp hh)

/-! ### Claim C7 (addLocation duplicate) and C8 (adjacency symmetry) -/

/-- C7 (amended): calling `add_node` with an already-registered id does
not fail; it silently replaces the stored location with a fresh node
carrying the new coordinates and an empty adjacency dict. -/
theorem c7_add_node_overwrites (g : Graph) (node_id : String) (x y : ℚ)
    (h : lookupA g.nodes node_id ≠ none) :
    lookupA (add_node g node_id x y).nodes node_id = some ⟨node_id, x, y, []⟩ :=
  lookupA_updateA_self _ _ _

/-- C7 (counterexample to the claim as stated): re-adding the registered
id `A` does not produce any error — `add_node` is total and returns the
graph with `A` overwritten. -/
theorem c7_counterexample :
    lookupA (add_node Graph.empty "A" 0 0).nodes "A" ≠ none ∧
      add_node (add_node Graph.empty "A" 0 0) "A" 3 4 =
        { nodes := [("A", ⟨"A", 3, 4, []⟩)], edges := [] } := by
  exact ⟨by decide, by decide⟩

/-- C7 witness: the amended theorem applied at a concrete duplicate id. -/
theorem c7_witness :
    lookupA (add_node Graph.empty "A" 0 0).nodes "A" ≠ none ∧
      lookupA (add_node (add_node Graph.empty "A" 0 0) "A" 3 4).nodes "A" =
        some ⟨"A", 3, 4, []⟩ :=
  ⟨by decide, c7_add_node_overwrites _ _ _ _ (by decide)⟩

/-- C8 (counterexample to the claim as stated): `g8c` is reachable by a
sequence of `add_node`/`add_edge` calls, `B` lists `A` with weight 1, but
`A` (freshly overwritten) lists nothing — symmetry is broken. -/
theorem c8_counterexample :
    Reachable g8c ∧ adjacent g8c "B" "A" 1 ∧ ∀ w : ℚ, ¬adjacent g8c "A" "B" w := by
  refine ⟨?_, ?_, ?_⟩
  · have hok : add_edge g8a "A" "B" 1 = .ok g8b := rfl
    exact Reachable.node "A" 5 5 (Reachable.edge "A" "B" 1
      (Reachable.node "B" 1 0 (Reachable.node "A" 0 0 Reachable.empty)) hok)
  · exact ⟨⟨"B", 1, 0, [("A", 1)]⟩, rfl, rfl⟩
  · rintro w ⟨n, hn, hb⟩
    have hng : lookupA g8c.nodes "A" = some (⟨"A", 5, 5, []⟩ : GNode) := rfl
    rw [hng] at hn
    cases hn
    exact absurd hb (by simp [lookupA])

/-- C8 (amended): `add_edge` errors exactly when an endpoint is missing
and otherwise inserts the edge in both adjacency directions; the
adjacency symmetry invariant holds in every state reachable by
`add_node`/`add_edge` sequences that never re-add an existing id. -/
theorem c8_symmetry (g : Graph) (h : ReachableFresh g) :
    (∀ a b w, adjacent g a b w → adjacent g b a w) ∧
      ∀ a b w, ((∃ e, add_edge g a b w = Except.error e) ↔
          (lookupA g.nodes a = none ∨ lookupA g.nodes b = none)) ∧
        ∀ g', add_edge g a b w = Except.ok g' →
          adjacent g' a b w ∧ adjacent g' b a w :=
  ⟨(reachableFresh_symm_aux h).1,
   fun a b w => ⟨add_edge_error_iff g a b w, fun _ hok => add_edge_ok_adjacent hok⟩⟩

/-- C8 witness: the amended theorem applied to the concrete fresh-built
graph `g8b`. -/
theorem c8_witness :
    ReachableFresh g8b ∧
      ((∀ a b w, adjacent g8b a b w → adjacent g8b b a w) ∧
        ∀ a b w, ((∃ e, add_edge g8b a b w = Except.error e) ↔
            (lookupA g8b.nodes a = none ∨ lookupA g8b.nodes b = none)) ∧
          ∀ g', add_edge g8b a b w = Except.ok g' →
            adjacent g' a b w ∧ adjacent g' b a w) :=
  have hrf : ReachableFresh g8b :=
    ReachableFresh.edge "A" "B" 1
      (ReachableFresh.node "B" 1 0
        (ReachableFresh.node "A" 0 0 ReachableFresh.empty rfl) rfl)
      rfl
  ⟨hrf, c8_symmetry g8b hrf⟩

/-! ### Claim C10 (astar with unknown endpoints) -/

/-- C10: when the start or the goal id is not a registered node, `astar`
returns the not-found value `None` (the same outcome as an unreachable
goal), before any search. -/
theorem c10_astar_unknown (g : Graph) (start_id goal_id : String)
    (h : lookupA g.nodes start_id = none ∨ lookupA g.nodes goal_id = none) :
    astar g start_id goal_id = none := by
  rw [astar, if_pos h]

/-- C10 witness: `astar` on the empty graph. -/
theorem c10_witness :
    (lookupA Graph.empty.nodes "S" = none ∨ lookupA Graph.empty.nodes "G" = none) ∧
      astar Graph.empty "S" "G" = none :=
  ⟨Or.inl rfl, c10_astar_unknown _ _ _ (Or.inl rfl)⟩

/-! ### Claim C5 (flatten/unflatten round trip, neighbor stop counts) -/

theorem lookupA_isSome_of_mem_keys {α : Type} {l : List (String × α)} {k : String}
    (h : k ∈ keysA l) : lookupA l k ≠ none := by
  induction l with
  | nil => simp [keysA] at h
  | cons hd tl ih =>
      obtain ⟨k0, v0⟩ := hd
      by_cases hk : k0 = k
      · simp [lookupA, hk]
      · simp only [keysA, List.map_cons, List.mem_cons] at h
        rcases h with h | h
        · exact absurd h.symm hk
        · simp only [lookupA, if_neg hk]
          exact ih (by simpa [keysA] using h)

theorem updateA_eq_append {α : Type} (l : List (String × α)) (k : String) (v : α)
    (h : k ∉ keysA l) : updateA l k v = l ++ [(k, v)] := by
  induction l with
  | nil => rfl
  | cons hd tl ih =>
      obtain ⟨k0, v0⟩ := hd
      simp only [keysA, List.map_cons, List.mem_cons] at h
      push_neg at h
      rw [updateA, if_neg (fun hh => h.1 hh.symm), ih (by simpa [keysA] using h.2)]
      simp

theorem rtpo_foldl (routes : List (String × List String)) (depot_id : String)
    (ks : List String) : ∀ (acc : List String) (idxs : List (ℕ × ℕ)),
    ks.foldl (rtpoStep routes depot_id) (acc, idxs) =
      (acc ++ ((ks.map (interiorOf routes depot_id)).flatten),
       idxs ++ cumIdx acc.length (ks.map (interiorOf routes depot_id))) := by
  induction ks with
  | nil => intro acc idxs; simp [cumIdx]
  | cons k ks ih =>
      intro acc idxs
      rw [List.foldl_cons]
      have hstep : rtpoStep routes depot_id (acc, idxs) k =
          (acc ++ interiorOf routes depot_id k,
           idxs ++ [(acc.length, (acc ++ interiorOf routes depot_id k).length)]) := rfl
      rw [hstep, ih]
      simp [cumIdx, List.length_append, List.append_assoc]

theorem routes_to_tps_order_eq (routes : List (String × List String)) (depot_id : String) :
    routes_to_tps_order routes depot_id =
      (((sortedKeys routes).map (interiorOf routes depot_id)).flatten,
       cumIdx 0 ((sortedKeys routes).map (interiorOf routes depot_id))) := by
  rw [routes_to_tps_order, rtpo_foldl]
  simp

theorem length_cumIdx (ofs : ℕ) (segs : List (List String)) :
    (cumIdx ofs segs).length = segs.length := by
  induction segs generalizing ofs with
  | nil => rfl
  | cons s rest ih => simp [cumIdx, ih]

theorem totr_foldl (tps_order : List String) (depot_id : String) :
    ∀ (pairs : List (String × (ℕ × ℕ))) (acc : List (String × List String)),
      (∀ p ∈ pairs, p.1 ∉ keysA acc) → (pairs.map Prod.fst).Nodup →
      pairs.foldl (fun acc p => updateA acc p.1
          (depot_id :: (tps_order.drop p.2.1).take (p.2.2 - p.2.1) ++ [depot_id])) acc =
        acc ++ pairs.map (fun p =>
          (p.1, depot_id :: (tps_order.drop p.2.1).take (p.2.2 - p.2.1) ++ [depot_id])) := by
  intro pairs
  induction pairs with
  | nil => intro acc _ _; simp
  | cons p pairs ih =>
      intro acc hfresh hnodup
      rw [List.foldl_cons, updateA_eq_append _ _ _ (hfresh p (by simp))]
      rw [ih (acc ++ [(p.1, _)]) ?_ (by simpa using hnodup.of_cons)]
      · simp
      · intro q hq
        simp only [keysA, List.map_append, List.mem_append]
        push_neg
        refine ⟨fun hh => hfresh q (by simp [hq]) hh, ?_⟩
        simp only [List.map_cons] at hnodup
        intro hh
        simp only [List.map_cons, List.nodup_cons] at hnodup
        exact hnodup.1 (by
          have : q.1 = p.1 := by simpa [keysA] using hh
          rw [← this]
          exact List.mem_map_of_mem Prod.fst hq)

theorem zip_cumIdx_slices (depot_id : String) (f : String → List String) :
    ∀ (ks : List String) (pre L : List String), L = pre ++ (ks.map f).flatten →
      (ks.zip (cumIdx pre.length (ks.map f))).map
        (fun p => (p.1, depot_id :: (L.drop p.2.1).take (p.2.2 - p.2.1) ++ [depot_id])) =
      ks.map (fun k => (k, depot_id :: f k ++ [depot_id])) := by
  intro ks
  induction ks with
  | nil => intro pre L _; simp
  | cons k ks ih =>
      intro pre L hL
      have hdrop : L.drop pre.length = f k ++ (ks.map f).flatten := by
        rw [hL, List.map_cons, List.flatten_cons]
        exact List.drop_left' rfl
      have hsub : pre.length + (f k).length - pre.length = (f k).length := by omega
      have htake : ((L.drop pre.length).take (f k).length) = f k := by
        rw [hdrop]; exact List.take_left _ _
      have hrec := ih (pre ++ f k) L
        (by rw [hL, List.map_cons, List.flatten_cons, List.append_assoc])
      rw [List.length_append] at hrec
      simp only [List.map_cons, cumIdx, List.zip_cons_cons]
      rw [hsub, htake, hrec]

theorem mem_sortedKeys {α : Type} (routes : List (String × α)) (k : String) :
    k ∈ sortedKeys routes ↔ k ∈ keysA routes :=
  (List.perm_insertionSort _ _).mem_iff

theorem nodup_sortedKeys {α : Type} (routes : List (String × α))
    (h : (keysA routes).Nodup) : (sortedKeys routes).Nodup :=
  ((List.perm_insertionSort _ _).nodup_iff).mpr h

theorem lookupA_map_self (ks : List String) (v : String → List String) {k : String}
    (h : k ∈ ks) : lookupA (ks.map (fun k => (k, v k))) k = some (v k) := by
  induction ks with
  | nil => simp at h
  | cons k0 ks ih =>
      by_cases hk : k0 = k
      · subst hk; simp [lookupA]
      · simp only [List.map_cons, lookupA, if_neg hk]
        refine ih ?_
        rcases List.mem_cons.mp h with h | h
        · exact absurd h.symm hk
        · exact h

theorem lookupA_map_none (ks : List String) (v : String → List String) {k : String}
    (h : k ∉ ks) : lookupA (ks.map (fun k => (k, v k))) k = none := by
  refine lookupA_eq_none_of_not_mem_keys _ _ ?_
  simpa [keysA, List.map_map, Function.comp] using h

theorem countStops_framed (d : String) (sl : List String) (h : ∀ x ∈ sl, x ≠ d) :
    countStops d (d :: sl ++ [d]) = sl.length := by
  have h1 : List.filter (fun n => n ≠ d) sl = sl :=
    List.filter_eq_self.mpr (fun a ha => by simpa using h a ha)
  simp [countStops, List.filter_append, h1]
  exact fun a ha => h a ha

theorem countStops_of_depotFramed {d : String} {r : List String}
    (hdf : DepotFramed d r) :
    ∃ int, r = d :: int ++ [d] ∧ d ∉ int ∧ countStops d r = int.length := by
  obtain ⟨int, hre, hd⟩ := hdf
  exact ⟨int, hre, hd, by
    rw [hre]
    exact countStops_framed d int (fun x hx hh => hd (hh ▸ hx))⟩

theorem interiorOf_eq {routes : List (String × List String)} {d k : String}
    {int : List String} (hk : lookupA routes k = some (d :: int ++ [d]))
    (hd : d ∉ int) : interiorOf routes d k = int := by
  unfold interiorOf
  rw [hk]
  have h1 : List.filter (fun n => n ≠ d) int = int :=
    List.filter_eq_self.mpr (fun a ha => by
      simp only [decide_eq_true_eq]
      exact fun hh => hd (hh ▸ ha))
  simp [List.filter_append, h1]
  exact fun a ha hh => hd (hh ▸ ha)

theorem mem_interiorOf_ne {routes : List (String × List String)} {d k x : String}
    (hx : x ∈ interiorOf routes d k) : x ≠ d := by
  unfold interiorOf at hx
  have := List.of_mem_filter hx
  simpa using this

theorem mem_flatten_interior_ne {routes : List (String × List String)} {d : String}
    {ks : List String} {x : String}
    (hx : x ∈ ((ks.map (interiorOf routes d)).flatten)) : x ≠ d := by
  rw [List.mem_flatten] at hx
  obtain ⟨l, hl, hxl⟩ := hx
  rw [List.mem_map] at hl
  obtain ⟨k, -, rfl⟩ := hl
  exact mem_interiorOf_ne hxl

theorem slice_count_lookup (depot_id : String) (f : String → List String)
    (hf : ∀ k x, x ∈ f k → x ≠ depot_id) (ks : List String) :
    ∀ (ofs : ℕ) (L' : List String),
      ofs + ((ks.map f).flatten).length ≤ L'.length →
      (∀ x ∈ L', x ≠ depot_id) →
      ∀ k, (lookupA ((ks.zip (cumIdx ofs (ks.map f))).map
          (fun p => (p.1, depot_id :: (L'.drop p.2.1).take (p.2.2 - p.2.1) ++ [depot_id]))) k).map
            (countStops depot_id)
        = (lookupA (ks.map (fun k => (k, depot_id :: f k ++ [depot_id]))) k).map
            (countStops depot_id) := by
  induction ks with
  | nil => intro ofs L' _ _ k; rfl
  | cons k0 ks ih =>
      intro ofs L' hbound hL' k
      have hlenflat : ((List.map f (k0 :: ks)).flatten).length =
          (f k0).length + ((ks.map f).flatten).length := by
        simp [List.map_cons, List.flatten_cons]
      simp only [List.map_cons, cumIdx, List.zip_cons_cons, List.map_cons, lookupA]
      by_cases hk : k0 = k
      · rw [if_pos hk, if_pos hk]
        rw [Option.map_some', Option.map_some']
        have hsub : ofs + (f k0).length - ofs = (f k0).length := by omega
        rw [hsub]
        have hslmem : ∀ x ∈ (L'.drop ofs).take (f k0).length, x ≠ depot_id :=
          fun x hx => hL' x (List.mem_of_mem_drop (List.mem_of_mem_take hx))
        have hsllen : ((L'.drop ofs).take (f k0).length).length = (f k0).length := by
          rw [List.length_take, List.length_drop]
          omega
        rw [countStops_framed _ _ hslmem, hsllen,
          countStops_framed _ _ (fun x hx => hf k0 x hx)]
      · rw [if_neg hk, if_neg hk]
        exact ih (ofs + (f k0).length) L' (by omega) hL' k

theorem length_swapAt (l : List String) (i j : ℕ) :
    (swapAt l i j).length = l.length := by
  simp [swapAt]

theorem mem_swapAt {l : List String} {i j : ℕ} {x : String}
    (hi : i < l.length) (hj : j < l.length) (hx : x ∈ swapAt l i j) : x ∈ l := by
  unfold swapAt at hx
  rcases List.mem_or_eq_of_mem_set hx with hx | rfl
  · rcases List.mem_or_eq_of_mem_set hx with hx | rfl
    · exact hx
    · rw [List.getD_eq_getElem _ _ hj]
      exact List.getElem_mem hj
  · rw [List.getD_eq_getElem _ _ hi]
    exact List.getElem_mem hi

theorem length_popInsert {l : List String} {i p : ℕ}
    (hi : i < l.length) (hp : p < l.length) :
    (popInsert l i p).length = l.length := by
  unfold popInsert
  rw [List.length_insertIdx _ _ (by rw [List.length_eraseIdx_of_lt hi]; omega),
    List.length_eraseIdx_of_lt hi]
  omega

theorem mem_popInsert {l : List String} {i p : ℕ} {x : String}
    (hi : i < l.length) (hp : p < l.length) (hx : x ∈ popInsert l i p) : x ∈ l := by
  unfold popInsert at hx
  rw [List.mem_insertIdx (by rw [List.length_eraseIdx_of_lt hi]; omega)] at hx
  rcases hx with rfl | hx
  · rw [List.getD_eq_getElem _ _ hi]
    exact List.getElem_mem hi
  · exact List.mem_of_mem_eraseIdx hx

/-- C5: on a depot-framed solution (modelled as a dict with distinct
keys), flattening with `routes_to_tps_order` and unflattening with
`tps_order_to_routes` (sorted truck ids, same depot) reproduces exactly
the original solution (as a dict: same lookup for every key), and every
output of `generate_neighbor_solution` has, for each vehicle, the same
number of stops as the input solution. -/
theorem c5_roundtrip_neighbor_counts (routes : List (String × List String))
    (depot_id : String) (hnodup : (keysA routes).Nodup)
    (hdf : ∀ t r, lookupA routes t = some r → DepotFramed depot_id r) :
    (∀ k, lookupA (tps_order_to_routes (routes_to_tps_order routes depot_id).1
        (routes_to_tps_order routes depot_id).2 (sortedKeys routes) depot_id) k =
      lookupA routes k) ∧
    ∀ (u : ℚ) (i1 i2 : ℕ) (k : String),
      (lookupA (generate_neighbor_solution routes depot_id u i1 i2) k).map
          (countStops depot_id) =
        (lookupA routes k).map (countStops depot_id) := by
  set ks := sortedKeys routes with hks
  set f := interiorOf routes depot_id with hf
  have hks_nodup : ks.Nodup := nodup_sortedKeys routes hnodup
  have hrt : routes_to_tps_order routes depot_id =
      ((ks.map f).flatten, cumIdx 0 (ks.map f)) := routes_to_tps_order_eq routes depot_id
  have hlen_idx : ∀ L : List (List String), (cumIdx 0 L).length = L.length :=
    fun L => length_cumIdx 0 L
  have hzipfst : ∀ idxs : List (ℕ × ℕ), idxs.length = ks.length →
      (ks.zip idxs).map Prod.fst = ks := by
    intro idxs hlen
    exact List.map_fst_zip _ _ (by omega)
  have h_totr : ∀ L' : List String,
      tps_order_to_routes L' (cumIdx 0 (ks.map f)) ks depot_id =
        (ks.zip (cumIdx 0 (ks.map f))).map
          (fun p => (p.1, depot_id :: (L'.drop p.2.1).take (p.2.2 - p.2.1) ++ [depot_id])) := by
    intro L'
    unfold tps_order_to_routes
    rw [totr_foldl L' depot_id _ [] (by simp [keysA]) ?_]
    · simp
    · rw [hzipfst _ (by rw [hlen_idx, List.length_map])]
      exact hks_nodup
  have hlookup_eq : ∀ k, k ∈ ks →
      ∃ int, lookupA routes k = some (depot_id :: int ++ [depot_id]) ∧
        depot_id ∉ int ∧ f k = int := by
    intro k hk
    have hkk : k ∈ keysA routes := (mem_sortedKeys routes k).mp hk
    obtain ⟨r, hr⟩ : ∃ r, lookupA routes k = some r := by
      cases hh : lookupA routes k with
      | none => exact absurd hh (lookupA_isSome_of_mem_keys hkk)
      | some v => exact ⟨v, rfl⟩
    obtain ⟨int, hre, hd⟩ := hdf k r hr
    exact ⟨int, hre ▸ hr, hd, interiorOf_eq (hre ▸ hr) hd⟩
  constructor
  · -- round trip
    intro k
    rw [hrt]
    simp only
    rw [h_totr]
    have hzs := zip_cumIdx_slices depot_id f ks [] ((ks.map f).flatten) (by simp)
    simp only [List.length_nil] at hzs
    rw [hzs]
    by_cases hk : k ∈ ks
    · obtain ⟨int, hr, hd, hfk⟩ := hlookup_eq k hk
      rw [lookupA_map_self _ _ hk, hr, hfk]
    · rw [lookupA_map_none _ _ hk,
        lookupA_eq_none_of_not_mem_keys _ _ (fun hh => hk ((mem_sortedKeys routes k).mpr hh))]
  · -- neighbor stop counts
    intro u i1 i2 k
    have hfd : ∀ k x, x ∈ f k → x ≠ depot_id := fun k x hx => mem_interiorOf_ne hx
    have hflatne : ∀ x ∈ (ks.map f).flatten, x ≠ depot_id :=
      fun x hx => mem_flatten_interior_ne hx
    have hmain : ∀ L' : List String, L'.length = ((ks.map f).flatten).length →
        (∀ x ∈ L', x ≠ depot_id) →
        (lookupA (tps_order_to_routes L' (cumIdx 0 (ks.map f)) ks depot_id) k).map
            (countStops depot_id) =
          (lookupA routes k).map (countStops depot_id) := by
      intro L' hlen hne
      rw [h_totr,
        slice_count_lookup depot_id f hfd ks 0 L' (by omega) hne k]
      by_cases hk : k ∈ ks
      · obtain ⟨int, hr, hd, hfk⟩ := hlookup_eq k hk
        rw [lookupA_map_self _ _ hk, hr, Option.map_some', Option.map_some', hfk,
          countStops_framed depot_id int (fun x hx hh => hd (hh ▸ hx))]
      · rw [lookupA_map_none _ _ hk,
          lookupA_eq_none_of_not_mem_keys _ _
            (fun hh => hk ((mem_sortedKeys routes k).mpr hh))]
    show (lookupA (generate_neighbor_solution routes depot_id u i1 i2) k).map
        (countStops depot_id) = _
    unfold generate_neighbor_solution
    rw [hrt]
    simp only
    set flat := (ks.map f).flatten with hflat
    by_cases h1 : u < 1/2 ∧ 2 ≤ flat.length
    · rw [if_pos h1]
      by_cases h2 : i1 % flat.length ≠ i2 % flat.length
      · rw [if_pos h2]
        have hn : 0 < flat.length := by omega
        refine hmain _ ?_ ?_
        · exact length_swapAt _ _ _
        · intro x hx
          exact hflatne x (mem_swapAt (Nat.mod_lt _ hn) (Nat.mod_lt _ hn) hx)
      · rw [if_neg h2]
        exact hmain _ rfl hflatne
    · rw [if_neg h1]
      by_cases h2 : 2 ≤ flat.length
      · rw [if_pos h2]
        by_cases h3 : i1 % flat.length ≠ i2 % flat.length
        · rw [if_pos h3]
          have hn : 0 < flat.length := by omega
          refine hmain _ ?_ ?_
          · exact length_popInsert (Nat.mod_lt _ hn) (Nat.mod_lt _ hn)
          · intro x hx
            exact hflatne x (mem_popInsert (Nat.mod_lt _ hn) (Nat.mod_lt _ hn) hx)
        · rw [if_neg h3]
          exact hmain _ rfl hflatne
      · rw [if_neg h2]
        exact hmain _ rfl hflatne

/-- C5 witness: the round-trip/stop-count theorem applied to a concrete
two-truck depot-framed solution. -/
theorem c5_witness :
    ((keysA c5routes).Nodup ∧ ∀ t r, lookupA c5routes t = some r → DepotFramed "D" r) ∧
      ((∀ k, lookupA (tps_order_to_routes (routes_to_tps_order c5routes "D").1
          (routes_to_tps_order c5routes "D").2 (sortedKeys c5routes) "D") k =
        lookupA c5routes k) ∧
      ∀ (u : ℚ) (i1 i2 : ℕ) (k : String),
        (lookupA (generate_neighbor_solution c5routes "D" u i1 i2) k).map (countStops "D") =
          (lookupA c5routes k).map (countStops "D")) := by
  have hnodup : (keysA c5routes).Nodup := by decide
  have hdf : ∀ t r, lookupA c5routes t = some r → DepotFramed "D" r := by
    intro t r h
    by_cases h1 : "T1" = t
    · rw [← h1] at h
      rw [show lookupA c5routes "T1" = some ["D", "A", "D"] from rfl] at h
      cases h
      exact ⟨["A"], rfl, by decide⟩
    · by_cases h2 : "T2" = t
      · rw [← h2] at h
        rw [show lookupA c5routes "T2" = some ["D", "B", "D"] from rfl] at h
        cases h
        exact ⟨["B"], rfl, by decide⟩
      · rw [show lookupA c5routes t = (if "T1" = t then some ["D", "A", "D"]
            else if "T2" = t then some ["D", "B", "D"] else none) from rfl,
          if_neg h1, if_neg h2] at h
        cases h
  exact ⟨⟨hnodup, hdf⟩, c5_roundtrip_neighbor_counts c5routes "D" hnodup hdf⟩

/-! ### Claim C3 (simulated annealing: best cost monotone) -/

theorem saAccept_bestCost_le (nbr : List (String × List String)) (nbrCost : EReal)
    (uPos iPos : ℕ) (st : SAState) :
    (saAccept nbr nbrCost uPos iPos st).bestCost ≤ st.bestCost := by
  unfold saAccept
  split_ifs with h
  · exact le_of_lt h
  · exact le_refl _

theorem saAccept_best_inv (g : Graph) (nbr : List (String × List String))
    (uPos iPos : ℕ) (st : SAState)
    (h : st.bestCost = calculate_total_distance g st.bestRoutes) :
    (saAccept nbr (calculate_total_distance g nbr) uPos iPos st).bestCost =
      calculate_total_distance g
        (saAccept nbr (calculate_total_distance g nbr) uPos iPos st).bestRoutes := by
  unfold saAccept
  split_ifs with hlt
  · rfl
  · exact h

theorem saTrial_bestCost_le (g : Graph) (depot_id : String) (temperature : ℚ)
    (uS : ℕ → ℚ) (iS : ℕ → ℕ) (st : SAState) :
    (saTrial g depot_id temperature uS iS st).bestCost ≤ st.bestCost := by
  unfold saTrial
  dsimp only
  split_ifs with h1 h2
  · exact saAccept_bestCost_le _ _ _ _ _
  · exact saAccept_bestCost_le _ _ _ _ _
  · exact le_refl _

theorem saTrial_best_inv (g : Graph) (depot_id : String) (temperature : ℚ)
    (uS : ℕ → ℚ) (iS : ℕ → ℕ) (st : SAState)
    (h : st.bestCost = calculate_total_distance g st.bestRoutes) :
    (saTrial g depot_id temperature uS iS st).bestCost =
      calculate_total_distance g (saTrial g depot_id temperature uS iS st).bestRoutes := by
  unfold saTrial
  dsimp only
  split_ifs with h1 h2
  · exact saAccept_best_inv g _ _ _ st h
  · exact saAccept_best_inv g _ _ _ st h
  · exact h

theorem saInnerLoop_props (g : Graph) (depot_id : String) (temperature : ℚ)
    (uS : ℕ → ℚ) (iS : ℕ → ℕ) (n : ℕ) : ∀ st : SAState,
    st.bestCost = calculate_total_distance g st.bestRoutes →
    (saInnerLoop g depot_id temperature uS iS n st).bestCost ≤ st.bestCost ∧
      (saInnerLoop g depot_id temperature uS iS n st).bestCost =
        calculate_total_distance g
          (saInnerLoop g depot_id temperature uS iS n st).bestRoutes := by
  induction n with
  | zero => intro st h; exact ⟨le_refl _, h⟩
  | succ n ih =>
      intro st h
      have hstep := saTrial_best_inv g depot_id temperature uS iS st h
      have hle := saTrial_bestCost_le g depot_id temperature uS iS st
      obtain ⟨ih1, ih2⟩ := ih (saTrial g depot_id temperature uS iS st) hstep
      exact ⟨le_trans ih1 hle, ih2⟩

theorem saOuterLoop_props (g : Graph) (depot_id : String) (cooling_rate : ℚ)
    (iter_per_temp : ℕ) (t_min : ℚ) (uS : ℕ → ℚ) (iS : ℕ → ℕ) (fuel : ℕ) :
    ∀ (temperature : ℚ) (st : SAState),
    st.bestCost = calculate_total_distance g st.bestRoutes →
    (saOuterLoop g depot_id cooling_rate iter_per_temp t_min uS iS fuel temperature st).bestCost ≤
        st.bestCost ∧
      (saOuterLoop g depot_id cooling_rate iter_per_temp t_min uS iS fuel temperature st).bestCost =
        calculate_total_distance g
          (saOuterLoop g depot_id cooling_rate iter_per_temp t_min uS iS
            fuel temperature st).bestRoutes := by
  induction fuel with
  | zero => intro temperature st h; exact ⟨le_refl _, h⟩
  | succ fuel ih =>
      intro temperature st h
      rw [saOuterLoop]
      split_ifs with hT
      · obtain ⟨hin1, hin2⟩ :=
          saInnerLoop_props g depot_id temperature uS iS iter_per_temp st h
        obtain ⟨ih1, ih2⟩ := ih (temperature * cooling_rate) _ hin2
        exact ⟨le_trans ih1 hin1, ih2⟩
      · exact ⟨le_refl _, h⟩

/-- C3: for every graph, solution, parameters and random-draw streams,
the solution returned by `simulated_annealing_optimize` has total
distance at most that of the input solution, and the internally tracked
best-known cost never increases at any perturbation trial. -/
theorem c3_sa_best_monotone (g : Graph) (routes : List (String × List String))
    (depot_id : String) (t0 cooling_rate : ℚ) (iter_per_temp : ℕ) (t_min : ℚ)
    (uS : ℕ → ℚ) (iS : ℕ → ℕ) (fuel : ℕ) :
    calculate_total_distance g (simulated_annealing_optimize g routes depot_id
        t0 cooling_rate iter_per_temp t_min uS iS fuel) ≤
      calculate_total_distance g routes ∧
    ∀ (temperature : ℚ) (st : SAState),
      (saTrial g depot_id temperature uS iS st).bestCost ≤ st.bestCost := by
  constructor
  · unfold simulated_annealing_optimize
    obtain ⟨h1, h2⟩ := saOuterLoop_props g depot_id cooling_rate iter_per_temp t_min uS iS
      fuel t0
      { currentRoutes := routes, currentCost := calculate_total_distance g routes,
        bestRoutes := routes, bestCost := calculate_total_distance g routes,
        uPos := 0, iPos := 0 } rfl
    calc calculate_total_distance g _ = _ := h2.symm
      _ ≤ _ := h1
  · exact fun temperature st => saTrial_bestCost_le g depot_id temperature uS iS st

/-! ### Claim C4 (2-opt never increases distance; convergence fixed point) -/

theorem pairSum_append (g : Graph) :
    ∀ (A B : List String) {x y : String}, A.getLast? = some x → B.head? = some y →
      pairSum g (A ++ B) = pairSum g A + euclidean g x y + pairSum g B := by
  intro A
  induction A with
  | nil => intro B x y hx _; simp at hx
  | cons a A ih =>
      intro B x y hx hy
      cases A with
      | nil =>
          simp only [List.getLast?_singleton, Option.some.injEq] at hx
          subst hx
          cases B with
          | nil => simp at hy
          | cons b B =>
              simp only [List.head?_cons, Option.some.injEq] at hy
              subst hy
              show euclidean g a b + pairSum g (b :: B) =
                0 + euclidean g a b + pairSum g (b :: B)
              rw [zero_add]
      | cons a' A' =>
          have hx' : (a' :: A').getLast? = some x := by
            rwa [List.getLast?_cons_cons] at hx
          have h1 : pairSum g ((a :: a' :: A') ++ B) =
              euclidean g a a' + pairSum g ((a' :: A') ++ B) := rfl
          have h2 : pairSum g (a :: a' :: A') =
              euclidean g a a' + pairSum g (a' :: A') := rfl
          rw [h1, ih B hx' hy, h2]
          simp [add_assoc]

theorem pairSum_reverse (g : Graph) : ∀ (B : List String),
    pairSum g B.reverse = pairSum g B := by
  intro B
  induction B with
  | nil => rfl
  | cons b B ih =>
      cases B with
      | nil => rfl
      | cons c B' =>
          have hrev : (b :: c :: B').reverse = (c :: B').reverse ++ [b] := by
            simp
          rw [hrev, pairSum_append g ((c :: B').reverse) [b]
            (x := c) (y := b) (by simp) rfl]
          rw [ih]
          have h2 : pairSum g (b :: c :: B') = euclidean g b c + pairSum g (c :: B') := rfl
          rw [h2, euclidean_comm g c b]
          show pairSum g (c :: B') + euclidean g b c + 0 = _
          rw [add_zero]
          exact add_comm _ _

theorem pairSum_nonneg (g : Graph) : ∀ (l : List String), 0 ≤ pairSum g l := by
  intro l
  induction l with
  | nil => exact le_refl _
  | cons a l ih =>
      cases l with
      | nil => exact le_refl _
      | cons b l' =>
          have : pairSum g (a :: b :: l') = euclidean g a b + pairSum g (b :: l') := rfl
          rw [this]
          exact add_nonneg (euclidean_nonneg g a b) ih

theorem pairSum_ne_bot (g : Graph) (l : List String) : pairSum g l ≠ ⊥ :=
  fun h => absurd (h ▸ pairSum_nonneg g l) (by simp)

theorem ereal_le_of_sub_gt {A B θE : EReal} (hB : B ≠ ⊥) (hθ : 0 ≤ θE)
    (h : θE < A - B) : B ≤ A := by
  cases A with
  | h_top => exact le_top
  | h_bot =>
      exfalso
      have hnegB : -B ≠ ⊤ := fun hh => hB (by simpa using EReal.neg_eq_top_iff.mp hh)
      have : (⊥ : EReal) - B = ⊥ := by
        rw [sub_eq_add_neg]
        cases hb : -B with
        | h_top => exact absurd hb hnegB
        | h_bot => rfl
        | h_real r => rfl
      rw [this] at h
      exact absurd (lt_of_le_of_lt hθ h) (by simp)
  | h_real a =>
      cases B with
      | h_top =>
          exfalso
          have : (a : EReal) - ⊤ = ⊥ := by
            rw [sub_eq_add_neg, EReal.neg_top]
            simp
          rw [this] at h
          exact absurd (lt_of_le_of_lt hθ h) (by simp)
      | h_bot => exact absurd rfl hB
      | h_real b =>
          rw [← EReal.coe_sub] at h
          have h0 : (0 : EReal) < ((a - b : ℝ) : EReal) := lt_of_le_of_lt hθ h
          rw [← EReal.coe_zero, EReal.coe_lt_coe_iff] at h0
          rw [EReal.coe_le_coe_iff]
          linarith

theorem getLast?_take_of_lt {l : List String} {i : ℕ} (h1 : 1 ≤ i)
    (h2 : i - 1 < l.length) :
    (l.take i).getLast? = some (l.getD (i - 1) "") := by
  have hi : i = (i - 1) + 1 := by omega
  conv_lhs => rw [hi]
  rw [List.take_succ, List.getElem?_eq_getElem h2, List.getD_eq_getElem _ _ h2]
  exact List.getLast?_concat _

theorem head?_drop {l : List String} {i : ℕ} (hi : i < l.length) :
    (l.drop i).head? = some (l.getD i "") := by
  rw [List.drop_eq_getElem_cons hi, List.getD_eq_getElem _ _ hi]
  rfl

theorem head?_take {l : List String} {cnt : ℕ} (hcnt : 1 ≤ cnt) :
    (l.take cnt).head? = l.head? := by
  cases l with
  | nil => simp
  | cons a l =>
      cases cnt with
      | zero => omega
      | succ n => rfl

theorem head?_append_left {A B : List String} {x : String} (h : A.head? = some x) :
    (A ++ B).head? = some x := by
  cases A with
  | nil => simp at h
  | cons a A => simpa using h

/-- Distance decomposition of a 2-opt reversal: the three common blocks
keep their internal sums, only the two boundary edges change. -/
theorem reverseSegment_pairSum_le (g : Graph) (θ : ℚ) (route : List String) (i j : ℕ)
    (hθ : 0 ≤ θ) (h1 : 1 ≤ i) (hij : i < j) (hj : j + 1 < route.length)
    (hcond : ((θ : ℝ) : EReal) <
      (euclidean g (route.getD (i - 1) "") (route.getD i "") +
        euclidean g (route.getD j "") (route.getD (j + 1) "")) -
      (euclidean g (route.getD (i - 1) "") (route.getD j "") +
        euclidean g (route.getD i "") (route.getD (j + 1) ""))) :
    pairSum g (reverseSegment route i j) ≤ pairSum g route := by
  have hA : (route.take i).getLast? = some (route.getD (i - 1) "") :=
    getLast?_take_of_lt h1 (by omega)
  have hBhead : ((route.drop i).take (j + 1 - i)).head? = some (route.getD i "") := by
    rw [head?_take (by omega)]
    exact head?_drop (by omega)
  have hBlen : ((route.drop i).length) = route.length - i := List.length_drop _ _
  have hBlast : ((route.drop i).take (j + 1 - i)).getLast? = some (route.getD j "") := by
    rw [getLast?_take_of_lt (by omega) (by rw [hBlen]; omega)]
    congr 1
    rw [List.getD_eq_getElem _ _ (by rw [hBlen]; omega),
      List.getD_eq_getElem _ _ (show j < route.length by omega)]
    rw [List.getElem_drop route]
    congr 1
    omega
  have hChead : (route.drop (j + 1)).head? = some (route.getD (j + 1) "") :=
    head?_drop (by omega)
  have hBC : (route.drop i).take (j + 1 - i) ++ route.drop (j + 1) = route.drop i := by
    have : (route.drop i).drop (j + 1 - i) = route.drop (j + 1) := by
      rw [List.drop_drop]
      congr 1
      omega
    rw [← this, List.take_append_drop]
  have hroute : route = route.take i ++
      ((route.drop i).take (j + 1 - i) ++ route.drop (j + 1)) := by
    rw [hBC, List.take_append_drop]
  have hrs : reverseSegment route i j = route.take i ++
      (((route.drop i).take (j + 1 - i)).reverse ++ route.drop (j + 1)) := by
    unfold reverseSegment
    rw [List.append_assoc]
  have e1 : pairSum g route = pairSum g (route.take i) +
      euclidean g (route.getD (i - 1) "") (route.getD i "") +
      pairSum g ((route.drop i).take (j + 1 - i) ++ route.drop (j + 1)) := by
    conv_lhs => rw [hroute]
    exact pairSum_append g _ _ hA (head?_append_left hBhead)
  have e2 : pairSum g ((route.drop i).take (j + 1 - i) ++ route.drop (j + 1)) =
      pairSum g ((route.drop i).take (j + 1 - i)) +
        euclidean g (route.getD j "") (route.getD (j + 1) "") +
        pairSum g (route.drop (j + 1)) :=
    pairSum_append g _ _ hBlast hChead
  have e3 : pairSum g (reverseSegment route i j) = pairSum g (route.take i) +
      euclidean g (route.getD (i - 1) "") (route.getD j "") +
      pairSum g (((route.drop i).take (j + 1 - i)).reverse ++ route.drop (j + 1)) := by
    conv_lhs => rw [hrs]
    refine pairSum_append g _ _ hA (head?_append_left ?_)
    rw [List.head?_reverse]
    exact hBlast
  have e4 : pairSum g (((route.drop i).take (j + 1 - i)).reverse ++ route.drop (j + 1)) =
      pairSum g ((route.drop i).take (j + 1 - i)) +
        euclidean g (route.getD i "") (route.getD (j + 1) "") +
        pairSum g (route.drop (j + 1)) := by
    rw [pairSum_append g _ _ (by rw [List.getLast?_reverse]; exact hBhead) hChead,
      pairSum_reverse]
  have hkey : euclidean g (route.getD (i - 1) "") (route.getD j "") +
      euclidean g (route.getD i "") (route.getD (j + 1) "") ≤
      euclidean g (route.getD (i - 1) "") (route.getD i "") +
        euclidean g (route.getD j "") (route.getD (j + 1) "") := by
    refine ereal_le_of_sub_gt ?_ ?_ hcond
    · intro hh
      have := add_nonneg (euclidean_nonneg g (route.getD (i - 1) "") (route.getD j ""))
        (euclidean_nonneg g (route.getD i "") (route.getD (j + 1) ""))
      rw [hh] at this
      exact absurd this (by simp)
    · rw [show ((0 : EReal) = ((0 : ℝ) : EReal)) from rfl, EReal.coe_le_coe_iff]
      exact_mod_cast hθ
  rw [e3, e4, e1, e2]
  calc pairSum g (route.take i) +
        euclidean g (route.getD (i - 1) "") (route.getD j "") +
        (pairSum g ((route.drop i).take (j + 1 - i)) +
          euclidean g (route.getD i "") (route.getD (j + 1) "") +
          pairSum g (route.drop (j + 1)))
      = (pairSum g (route.take i) + pairSum g ((route.drop i).take (j + 1 - i)) +
          pairSum g (route.drop (j + 1))) +
        (euclidean g (route.getD (i - 1) "") (route.getD j "") +
          euclidean g (route.getD i "") (route.getD (j + 1) "")) := by abel
    _ ≤ (pairSum g (route.take i) + pairSum g ((route.drop i).take (j + 1 - i)) +
          pairSum g (route.drop (j + 1))) +
        (euclidean g (route.getD (i - 1) "") (route.getD i "") +
          euclidean g (route.getD j "") (route.getD (j + 1) "")) :=
      add_le_add_left hkey _
    _ = pairSum g (route.take i) +
        euclidean g (route.getD (i - 1) "") (route.getD i "") +
        (pairSum g ((route.drop i).take (j + 1 - i)) +
          euclidean g (route.getD j "") (route.getD (j + 1) "") +
          pairSum g (route.drop (j + 1))) := by abel

theorem scanJ_spec {g : Graph} {θ : ℚ} {route : List String} {i : ℕ}
    {js : List ℕ} {r : List String} (h : scanJ g θ route i js = some r) :
    ∃ j ∈ js, (((θ : ℝ) : EReal) <
        (euclidean g (route.getD (i - 1) "") (route.getD i "") +
          euclidean g (route.getD j "") (route.getD (j + 1) "")) -
        (euclidean g (route.getD (i - 1) "") (route.getD j "") +
          euclidean g (route.getD i "") (route.getD (j + 1) ""))) ∧
      r = reverseSegment route i j := by
  induction js with
  | nil => exact absurd h (by simp [scanJ])
  | cons j js ih =>
      rw [scanJ] at h
      split_ifs at h with hc
      · cases h
        exact ⟨j, by simp, hc, rfl⟩
      · obtain ⟨j', hj', hcond, hr⟩ := ih h
        exact ⟨j', by simp [hj'], hcond, hr⟩

theorem scanI_spec {g : Graph} {θ : ℚ} {route : List String}
    {irange : List ℕ} {r : List String} (h : scanI g θ route irange = some r) :
    ∃ i ∈ irange, ∃ j ∈ List.range' (i + 1) (route.length - 1 - (i + 1)),
      (((θ : ℝ) : EReal) <
        (euclidean g (route.getD (i - 1) "") (route.getD i "") +
          euclidean g (route.getD j "") (route.getD (j + 1) "")) -
        (euclidean g (route.getD (i - 1) "") (route.getD j "") +
          euclidean g (route.getD i "") (route.getD (j + 1) ""))) ∧
      r = reverseSegment route i j := by
  induction irange with
  | nil => exact absurd h (by simp [scanI])
  | cons i irest ih =>
      rw [scanI] at h
      cases hj : scanJ g θ route i
          (List.range' (i + 1) (route.length - 1 - (i + 1))) with
      | none =>
          rw [hj] at h
          obtain ⟨i', hi', rest⟩ := ih h
          exact ⟨i', by simp [hi'], rest⟩
      | some r' =>
          rw [hj] at h
          cases h
          obtain ⟨j, hjmem, hcond, hr⟩ := scanJ_spec hj
          exact ⟨i, by simp, j, hjmem, hcond, hr⟩

theorem length_reverseSegment (route : List String) (i j : ℕ)
    (hij : i ≤ j + 1) (hi : i ≤ route.length) (hj : j + 1 ≤ route.length) :
    (reverseSegment route i j).length = route.length := by
  unfold reverseSegment
  rw [List.length_append, List.length_append, List.length_take, List.length_reverse,
    List.length_take, List.length_drop, List.length_drop,
    Nat.min_eq_left hi, Nat.min_eq_left (by omega)]
  omega

theorem twoOptScan_le {g : Graph} {θ : ℚ} {route r : List String}
    (hθ : 0 ≤ θ) (h : twoOptScan g θ route = some r) :
    calculate_route_distance g r ≤ calculate_route_distance g route := by
  obtain ⟨i, hi, j, hj, hcond, hr⟩ := scanI_spec h
  rw [List.mem_range'_1] at hi hj
  have hbi : 1 ≤ i ∧ i < 1 + (route.length - 2 - 1) := hi
  have hbj : i + 1 ≤ j ∧ j < (i + 1) + (route.length - 1 - (i + 1)) := hj
  have h1 : 1 ≤ i := hbi.1
  have hij : i < j := by omega
  have hjL : j + 1 < route.length := by omega
  have hL : 2 ≤ route.length := by omega
  have hlen : r.length = route.length := by
    rw [hr]; exact length_reverseSegment route i j (by omega) (by omega) (by omega)
  unfold calculate_route_distance
  rw [if_neg (by omega), if_neg (by omega)]
  rw [hr]
  exact reverseSegment_pairSum_le g θ route i j hθ h1 hij hjL hcond

theorem twoOptLoop_dist_le (g : Graph) (θ : ℚ) (hθ : 0 ≤ θ) :
    ∀ (fuel : ℕ) (route : List String),
      calculate_route_distance g (twoOptLoop g θ fuel route).1 ≤
        calculate_route_distance g route := by
  intro fuel
  induction fuel with
  | zero => intro route; exact le_refl _
  | succ fuel ih =>
      intro route
      rw [twoOptLoop]
      cases hscan : twoOptScan g θ route with
      | none => exact le_refl _
      | some r => exact le_trans (ih r) (twoOptScan_le hθ hscan)

theorem twoOptLoop_converged (g : Graph) (θ : ℚ) :
    ∀ (fuel : ℕ) (route r : List String),
      twoOptLoop g θ fuel route = (r, true) →
      twoOptScan g θ r = none ∧ 1 ≤ fuel := by
  intro fuel
  induction fuel with
  | zero =>
      intro route r h
      rw [twoOptLoop] at h
      exact absurd (congrArg Prod.snd h) (by simp)
  | succ fuel ih =>
      intro route r h
      rw [twoOptLoop] at h
      cases hscan : twoOptScan g θ route with
      | none =>
          rw [hscan] at h
          obtain ⟨h1, -⟩ := Prod.mk.injEq .. ▸ h
          cases h
          exact ⟨hscan, by omega⟩
      | some r' =>
          rw [hscan] at h
          obtain ⟨h1, -⟩ := ih r' r h
          exact ⟨h1, by omega⟩

/-- C4: for every graph, route and non-negative improvement threshold,
`two_opt_single_route` never increases the route's total distance; and
when the loop terminates because a full scan found no
threshold-exceeding move (not by exhausting `max_iterations`), the
returned route is a fixed point — reapplying `two_opt_single_route` with
the same parameters returns it unchanged. -/
theorem c4_two_opt_monotone_fixed (g : Graph) (route : List String)
    (improvement_threshold : ℚ) (max_iterations : ℕ)
    (hθ : 0 ≤ improvement_threshold) :
    calculate_route_distance g
        (two_opt_single_route g route improvement_threshold max_iterations) ≤
      calculate_route_distance g route ∧
    ((twoOptLoop g improvement_threshold max_iterations route).2 = true →
      two_opt_single_route g
          (twoOptLoop g improvement_threshold max_iterations route).1
          improvement_threshold max_iterations =
        (twoOptLoop g improvement_threshold max_iterations route).1) := by
  constructor
  · exact twoOptLoop_dist_le g improvement_threshold hθ max_iterations route
  · intro hconv
    have heq : twoOptLoop g improvement_threshold max_iterations route =
        ((twoOptLoop g improvement_threshold max_iterations route).1, true) := by
      rw [← hconv]
    obtain ⟨hnone, hfuel⟩ := twoOptLoop_converged g improvement_threshold
      max_iterations route _ heq
    unfold two_opt_single_route
    cases max_iterations with
    | zero => omega
    | succ m =>
        rw [twoOptLoop, hnone]

/-- C4 witness: a two-element depot-framed route (no interior pair
exists, so the very first scan converges). -/
theorem c4_witness :
    (0 : ℚ) ≤ 0 ∧
      (calculate_route_distance (add_node Graph.empty "D" 0 0)
          (two_opt_single_route (add_node Graph.empty "D" 0 0) ["D", "D"] 0 5) ≤
        calculate_route_distance (add_node Graph.empty "D" 0 0) ["D", "D"] ∧
      ((twoOptLoop (add_node Graph.empty "D" 0 0) 0 5 ["D", "D"]).2 = true →
        two_opt_single_route (add_node Graph.empty "D" 0 0)
            (twoOptLoop (add_node Graph.empty "D" 0 0) 0 5 ["D", "D"]).1 0 5 =
          (twoOptLoop (add_node Graph.empty "D" 0 0) 0 5 ["D", "D"]).1)) :=
  ⟨le_refl 0, c4_two_opt_monotone_fixed (add_node Graph.empty "D" 0 0)
    ["D", "D"] 0 5 (le_refl 0)⟩

/-! ### A* loop invariants (shared by C2 and C6) -/

theorem idxA_lt_length {l : List String} {k : String} (h : k ∈ l) :
    idxA l k < l.length := by
  induction l with
  | nil => simp at h
  | cons a l ih =>
      by_cases ha : a = k
      · simp [idxA, ha]
      · rw [idxA, if_neg ha]
        rcases List.mem_cons.mp h with h | h
        · exact absurd h.symm ha
        · simpa using ih h

theorem idxA_append_mem {l : List String} {k : String} (h : k ∈ l) (tl : List String) :
    idxA (l ++ tl) k = idxA l k := by
  induction l with
  | nil => simp at h
  | cons a l ih =>
      by_cases ha : a = k
      · simp [idxA, ha]
      · rw [List.cons_append, idxA, if_neg ha, idxA, if_neg ha]
        rcases List.mem_cons.mp h with h | h
        · exact absurd h.symm ha
        · rw [ih h]

theorem idxA_append_self {l : List String} {k : String} (h : k ∉ l) :
    idxA (l ++ [k]) k = l.length := by
  induction l with
  | nil => simp [idxA]
  | cons a l ih =>
      rw [List.cons_append, idxA,
        if_neg (by intro hh; exact h (by rw [← hh]; exact List.mem_cons_self a l)),
        List.length_cons]
      rw [ih (fun hh => h (List.mem_cons_of_mem a hh))]

theorem popMin_mem : ∀ {l : List HeapEntry} {e : HeapEntry} {rest : List HeapEntry},
    popMin l = some (e, rest) → e ∈ l := by
  intro l
  induction l with
  | nil => intro e rest h; simp [popMin] at h
  | cons a l ih =>
      intro e rest h
      rw [popMin] at h
      cases hp : popMin l with
      | none => rw [hp] at h; cases h; simp
      | some mr =>
          obtain ⟨m, rem⟩ := mr
          rw [hp] at h
          dsimp only at h
          split_ifs at h with hle
          · cases h; simp
          · cases h
            exact List.mem_cons_of_mem a (ih hp)

theorem popMin_rest_sub : ∀ {l : List HeapEntry} {e : HeapEntry} {rest : List HeapEntry},
    popMin l = some (e, rest) → ∀ x ∈ rest, x ∈ l := by
  intro l
  induction l with
  | nil => intro e rest h; simp [popMin] at h
  | cons a l ih =>
      intro e rest h x hx
      rw [popMin] at h
      cases hp : popMin l with
      | none => rw [hp] at h; cases h; simp at hx
      | some mr =>
          obtain ⟨m, rem⟩ := mr
          rw [hp] at h
          dsimp only at h
          split_ifs at h with hle
          · cases h
            exact List.mem_cons_of_mem a hx
          · cases h
            rcases List.mem_cons.mp hx with hx | hx
            · exact hx ▸ List.mem_cons_self a l
            · exact List.mem_cons_of_mem a (ih hp x hx)

theorem mem_get_neighbors_adjacent {g : Graph} {cur : String} {nbw : String × ℚ}
    (h : nbw ∈ get_neighbors g cur) : ∃ w, adjacent g cur nbw.1 w := by
  unfold get_neighbors at h
  cases hn : lookupA g.nodes cur with
  | none => rw [hn] at h; simp at h
  | some n =>
      rw [hn] at h
      have hk : nbw.1 ∈ keysA n.neighbors := by
        rw [keysA]
        exact List.mem_map_of_mem Prod.fst h
      cases hw : lookupA n.neighbors nbw.1 with
      | none => exact absurd hw (lookupA_isSome_of_mem_keys hk)
      | some w => exact ⟨w, n, hn, hw⟩

theorem aInv_init (g : Graph) (s t : String) :
    AInv g s
      { openSet := [((0 : EReal), 0, s)], counter := 1,
        gScore := [(s, (0 : EReal))], fScore := [(s, euclidean g s t)],
        cameFrom := [], closed := [] } := by
  refine ⟨?_, ?_, ?_, rfl, ?_, List.nodup_nil, Or.inr ⟨rfl, ?_⟩⟩
  · intro k v h; exact absurd h (by simp [lookupA])
  · intro k h; simp at h
  · intro k h
    left
    by_cases hk : s = k
    · exact hk.symm
    · rw [show lookupA [(s, (0 : EReal))] k = none from by
        simp [lookupA, hk]] at h
      exact absurd rfl h
  · intro e he
    simp only [List.mem_singleton] at he
    subst he
    simp [lookupA]
  · intro e he
    simp only [List.mem_singleton] at he
    subst he
    rfl

theorem aInv_skip {g : Graph} {s : String} {st : AState} {e : HeapEntry}
    {rest : List HeapEntry} (hpop : popMin st.openSet = some (e, rest))
    (hinv : AInv g s st) : AInv g s { st with openSet := rest } := by
  obtain ⟨hA, hB, hC, hD, hE, hF, hG⟩ := hinv
  refine ⟨hA, hB, hC, hD, ?_, hF, ?_⟩
  · intro e' he'
    exact hE e' (popMin_rest_sub hpop e' he')
  · rcases hG with hG | ⟨h1, h2⟩
    · exact Or.inl hG
    · exact Or.inr ⟨h1, fun e' he' => h2 e' (popMin_rest_sub hpop e' he')⟩

theorem aInv_close {g : Graph} {s : String} {st : AState} {e : HeapEntry}
    {rest : List HeapEntry} (hpop : popMin st.openSet = some (e, rest))
    (hcur : e.2.2 ∉ st.closed) (hinv : AInv g s st) :
    AInv g s { st with openSet := rest, closed := st.closed ++ [e.2.2] } ∧
      s ∈ st.closed ++ [e.2.2] := by
  obtain ⟨hA, hB, hC, hD, hE, hF, hG⟩ := hinv
  have hs_mem : s ∈ st.closed ++ [e.2.2] := by
    rcases hG with hG | ⟨h1, h2⟩
    · exact List.mem_append_left _ hG
    · rw [h1]
      have : e.2.2 = s := h2 e (popMin_mem hpop)
      simp [this]
  refine ⟨⟨?_, ?_, hC, hD, ?_, ?_, Or.inl hs_mem⟩, hs_mem⟩
  · intro k v h
    obtain ⟨hadj, hvmem, hrank⟩ := hA k v h
    refine ⟨hadj, List.mem_append_left _ hvmem, ?_⟩
    intro hk
    rcases List.mem_append.mp hk with hk | hk
    · rw [idxA_append_mem hvmem, idxA_append_mem hk]
      exact hrank hk
    · simp only [List.mem_singleton] at hk
      subst hk
      rw [idxA_append_mem hvmem, idxA_append_self hcur]
      exact idxA_lt_length hvmem
  · intro k hk
    rcases List.mem_append.mp hk with hk | hk
    · exact hB k hk
    · simp only [List.mem_singleton] at hk
      subst hk
      exact hE e (popMin_mem hpop)
  · intro e' he'
    exact hE e' (popMin_rest_sub hpop e' he')
  · refine List.Nodup.append hF (List.nodup_singleton _) ?_
    intro a ha hb
    simp only [List.mem_singleton] at hb
    exact hcur (hb ▸ ha)

theorem relaxPush_closed (g : Graph) (goal cur nb : String) (tg : EReal)
    (st : AState) : (relaxPush g goal cur nb tg st).closed = st.closed := rfl

theorem aInv_relaxPush {g : Graph} {s goal cur nb : String} {tg : EReal}
    {st : AState} (hinv : AInv g s st) (hs : s ∈ st.closed) (hcur : cur ∈ st.closed)
    (hadj : ∃ w, adjacent g cur nb w) (hnb : nb ∉ st.closed) :
    AInv g s (relaxPush g goal cur nb tg st) := by
  obtain ⟨hA, hB, hC, hD, hE, hF, hG⟩ := hinv
  have hnbs : nb ≠ s := fun hh => hnb (hh ▸ hs)
  refine ⟨?_, ?_, ?_, ?_, ?_, hF, Or.inl hs⟩
  · intro k v h
    by_cases hk : nb = k
    · subst hk
      rw [show (relaxPush g goal cur nb tg st).cameFrom =
          updateA st.cameFrom nb cur from rfl, lookupA_updateA_self] at h
      cases h
      exact ⟨hadj, hcur, fun hmem => absurd hmem hnb⟩
    · rw [show (relaxPush g goal cur nb tg st).cameFrom =
          updateA st.cameFrom nb cur from rfl, lookupA_updateA_ne _ _ _ _ hk] at h
      exact hA k v h
  · intro k hk
    exact lookupA_isSome_updateA _ _ _ _ (hB k hk)
  · intro k hk
    by_cases hknb : nb = k
    · subst hknb
      right
      rw [show (relaxPush g goal cur nb tg st).cameFrom =
          updateA st.cameFrom nb cur from rfl, lookupA_updateA_self]
      simp
    · rw [show (relaxPush g goal cur nb tg st).gScore =
          updateA st.gScore nb tg from rfl, lookupA_updateA_ne _ _ _ _ hknb] at hk
      rcases hC k hk with h | h
      · exact Or.inl h
      · right
        rw [show (relaxPush g goal cur nb tg st).cameFrom =
            updateA st.cameFrom nb cur from rfl]
        exact lookupA_isSome_updateA _ _ _ _ h
  · rw [show (relaxPush g goal cur nb tg st).cameFrom =
        updateA st.cameFrom nb cur from rfl,
      lookupA_updateA_ne _ _ _ _ hnbs]
    exact hD
  · intro e he
    rw [show (relaxPush g goal cur nb tg st).openSet =
        st.openSet ++ [(tg + euclidean g nb goal, st.counter, nb)] from rfl] at he
    rcases List.mem_append.mp he with he | he
    · exact lookupA_isSome_updateA _ _ _ _ (hE e he)
    · simp only [List.mem_singleton] at he
      subst he
      rw [show (relaxPush g goal cur nb tg st).gScore =
          updateA st.gScore nb tg from rfl]
      simp [lookupA_updateA_self]

theorem aInv_relaxNeighbor {g : Graph} {s goal cur : String} {st : AState}
    {nbw : String × ℚ} (hinv : AInv g s st) (hs : s ∈ st.closed)
    (hcur : cur ∈ st.closed) (hadj : ∃ w, adjacent g cur nbw.1 w) :
    AInv g s (relaxNeighbor g goal cur st nbw) ∧
      (relaxNeighbor g goal cur st nbw).closed = st.closed := by
  unfold relaxNeighbor
  split_ifs with hmem
  · exact ⟨hinv, rfl⟩
  · cases hg : lookupA st.gScore nbw.1 with
    | none =>
        exact ⟨aInv_relaxPush hinv hs hcur hadj hmem, rfl⟩
    | some gnb =>
        dsimp only
        split_ifs with hlt
        · exact ⟨aInv_relaxPush hinv hs hcur hadj hmem, rfl⟩
        · exact ⟨hinv, rfl⟩

theorem aInv_relaxFold {g : Graph} {s goal cur : String} :
    ∀ (l : List (String × ℚ)) (st : AState), AInv g s st → s ∈ st.closed →
      cur ∈ st.closed → (∀ nbw ∈ l, ∃ w, adjacent g cur nbw.1 w) →
      AInv g s (l.foldl (relaxNeighbor g goal cur) st) ∧
        (l.foldl (relaxNeighbor g goal cur) st).closed = st.closed := by
  intro l
  induction l with
  | nil => intro st hinv _ _ _; exact ⟨hinv, rfl⟩
  | cons nbw l ih =>
      intro st hinv hs hcur hl
      rw [List.foldl_cons]
      obtain ⟨hinv', hcl⟩ := aInv_relaxNeighbor hinv hs hcur (hl nbw (by simp))
      obtain ⟨hinv'', hcl'⟩ := ih _ hinv' (hcl ▸ hs) (hcl ▸ hcur)
        (fun q hq => hl q (List.mem_cons_of_mem _ hq))
      exact ⟨hinv'', hcl'.trans hcl⟩

theorem reconstruct_ok {g : Graph} {s : String} {st : AState} (hinv : AInv g s st) :
    ∀ (fuel : ℕ) (k : String) (acc : List String), k ∈ st.closed →
      idxA st.closed k < fuel →
      ∃ pre, reconstruct_path st.cameFrom fuel k (k :: acc) = pre ++ (k :: acc) ∧
        (pre ++ [k]).head? = some s ∧
        List.Chain' (fun a b => ∃ w, adjacent g a b w) (pre ++ [k]) := by
  obtain ⟨hA, hB, hC, hD, hE, hF, hG⟩ := hinv
  intro fuel
  induction fuel with
  | zero => intro k acc _ h; omega
  | succ fuel ih =>
      intro k acc hk hfuel
      rw [reconstruct_path]
      cases hcf : lookupA st.cameFrom k with
      | none =>
          refine ⟨[], rfl, ?_, ?_⟩
          · rcases hC k (hB k hk) with h | h
            · rw [h]; rfl
            · exact absurd hcf h
          · simp
      | some v =>
          obtain ⟨hadj, hvmem, hrank⟩ := hA k v hcf
          have hvlt : idxA st.closed v < fuel := by
            have := hrank hk
            omega
          obtain ⟨pre', heq, hhead, hchain⟩ := ih v (k :: acc) hvmem hvlt
          refine ⟨pre' ++ [v], by dsimp only; rw [heq, List.append_assoc]; rfl, ?_, ?_⟩
          · exact head?_append_left hhead
          · rw [List.chain'_append]
            refine ⟨hchain, List.chain'_singleton _, ?_⟩
            intro x hx y hy
            rw [List.getLast?_concat] at hx
            simp only [Option.mem_def, Option.some.injEq] at hx
            simp only [List.head?_cons, Option.mem_def, Option.some.injEq] at hy
            subst hx; subst hy
            exact hadj

theorem astarLoop_valid (g : Graph) (goal s : String) :
    ∀ (fuel : ℕ) (st : AState), AInv g s st →
      ∀ p, astarLoop g goal fuel st = some (some p) →
      p.head? = some s ∧ p.getLast? = some goal ∧
        List.Chain' (fun a b => ∃ w, adjacent g a b w) p := by
  intro fuel
  induction fuel with
  | zero => intro st _ p h; exact absurd h (by simp [astarLoop])
  | succ fuel ih =>
      intro st hinv p h
      rw [astarLoop] at h
      cases hpop : popMin st.openSet with
      | none =>
          rw [hpop] at h
          exact absurd h (by simp)
      | some er =>
          obtain ⟨e, rest⟩ := er
          rw [hpop] at h
          dsimp only at h
          by_cases hcur : e.2.2 ∈ st.closed
          · rw [if_pos hcur] at h
            exact ih _ (aInv_skip hpop hinv) p h
          · rw [if_neg hcur] at h
            by_cases hgoal : e.2.2 = goal
            · rw [if_pos hgoal] at h
              obtain ⟨hinv1, hs1⟩ := aInv_close hpop hcur hinv
              have hkmem : e.2.2 ∈ st.closed ++ [e.2.2] := by simp
              obtain ⟨pre, heq, hhead, hchain⟩ :=
                reconstruct_ok hinv1 ((st.closed ++ [e.2.2]).length) e.2.2 []
                  hkmem (idxA_lt_length hkmem)
              have hp : p = pre ++ [e.2.2] := by
                have h' := Option.some.inj (Option.some.inj h)
                rw [← h', heq]
              subst hp
              refine ⟨hhead, ?_, hchain⟩
              rw [List.getLast?_concat, hgoal]
            · rw [if_neg hgoal] at h
              obtain ⟨hinv1, hs1⟩ := aInv_close hpop hcur hinv
              obtain ⟨hinv2, -⟩ := aInv_relaxFold (get_neighbors g e.2.2) _ hinv1 hs1
                (by simp) (fun nbw hn => mem_get_neighbors_adjacent hn)
              exact ih _ hinv2 p h

theorem astar_isPathFrom {g : Graph} {s t : String} {p : List String}
    (h : astar g s t = some p) : isPathFrom g s t p := by
  unfold astar at h
  by_cases h1 : lookupA g.nodes s = none ∨ lookupA g.nodes t = none
  · rw [if_pos h1] at h
    exact absurd h (by simp)
  · rw [if_neg h1] at h
    by_cases h2 : s = t
    · rw [if_pos h2] at h
      obtain rfl := Option.some.inj h
      exact ⟨rfl, by rw [List.getLast?_singleton, h2], List.chain'_singleton _⟩
    · rw [if_neg h2] at h
      dsimp only at h
      cases hloop : astarLoop g t (astarFuel g)
          { openSet := [((0 : EReal), 0, s)], counter := 1,
            gScore := [(s, (0 : EReal))], fScore := [(s, euclidean g s t)],
            cameFrom := [], closed := [] } with
      | none =>
          rw [hloop] at h
          exact absurd h (by simp)
      | some r =>
          rw [hloop] at h
          dsimp only at h
          rw [h] at hloop
          exact astarLoop_valid g t s _ _ (aInv_init g s t) p hloop

/-- C2 (amended): whenever `astar` returns a path, that path is a genuine
path of the graph from the start node to the goal node, and its total
cost (sum of traversed edge weights) is at least the true shortest-path
cost.  (Equality can fail for arbitrary positive edge weights — see the
counterexample.) -/
theorem c2_astar_valid_ge_shortest (g : Graph) (s t : String) (p : List String)
    (h : astar g s t = some p) :
    isPathFrom g s t p ∧ shortestCost g s t ≤ pathCost g p :=
  have hp := astar_isPathFrom h
  ⟨hp, sInf_le ⟨p, hp, rfl⟩⟩

theorem euclidean_eval (g : Graph) (a b : String) (n1 n2 : GNode)
    (ha : lookupA g.nodes a = some n1) (hb : lookupA g.nodes b = some n2) :
    euclidean g a b =
      ((Real.sqrt (((n1.x : ℝ) - (n2.x : ℝ)) * ((n1.x : ℝ) - (n2.x : ℝ)) +
        ((n1.y : ℝ) - (n2.y : ℝ)) * ((n1.y : ℝ) - (n2.y : ℝ))) : ℝ) : EReal) := by
  unfold euclidean
  rw [ha, hb]

/-- C2 witness: on the two-node graph `gC2w`, `astar` returns the edge
path, which the amended theorem certifies as a genuine path of cost at
least the shortest-path cost. -/
theorem c2_witness :
    astar gC2w "a" "b" = some ["a", "b"] ∧
      (isPathFrom gC2w "a" "b" ["a", "b"] ∧
        shortestCost gC2w "a" "b" ≤ pathCost gC2w ["a", "b"]) :=
  ⟨rfl, c2_astar_valid_ge_shortest gC2w "a" "b" ["a", "b"] rfl⟩

theorem sqrt121 : Real.sqrt 121 = 11 := by
  rw [show (121 : ℝ) = 11 ^ 2 by norm_num]
  exact Real.sqrt_sq (by norm_num)

theorem gCE_euclid_GG : euclidean gCE "G" "G" = ((0 : ℝ) : EReal) := by
  rw [euclidean_eval gCE "G" "G" ⟨"G", 0, 0, [("S", 10), ("A", 1/2)]⟩
    ⟨"G", 0, 0, [("S", 10), ("A", 1/2)]⟩ rfl rfl]
  norm_num

theorem gCE_euclid_AG : euclidean gCE "A" "G" = ((11 : ℝ) : EReal) := by
  rw [euclidean_eval gCE "A" "G" ⟨"A", 11, 0, [("S", 1), ("G", 1/2)]⟩
    ⟨"G", 0, 0, [("S", 10), ("A", 1/2)]⟩ rfl rfl]
  rw [show ((((11 : ℚ) : ℝ) - ((0 : ℚ) : ℝ)) * (((11 : ℚ) : ℝ) - ((0 : ℚ) : ℝ)) +
      (((0 : ℚ) : ℝ) - ((0 : ℚ) : ℝ)) * (((0 : ℚ) : ℝ) - ((0 : ℚ) : ℝ)) : ℝ) =
    (121 : ℝ) by push_cast; ring]
  rw [sqrt121]

theorem gCE_heapLe :
    heapLe ((0 : EReal) + (((10 : ℚ) : ℝ) : EReal) + euclidean gCE "G" "G", 1, "G")
      ((0 : EReal) + (((1 : ℚ) : ℝ) : EReal) + euclidean gCE "A" "G", 2, "A") := by
  left
  show (0 : EReal) + (((10 : ℚ) : ℝ) : EReal) + euclidean gCE "G" "G" <
    (0 : EReal) + (((1 : ℚ) : ℝ) : EReal) + euclidean gCE "A" "G"
  rw [gCE_euclid_GG, gCE_euclid_AG]
  norm_cast

theorem astar_gCE_run : astar gCE "S" "G" = some ["S", "G"] := by
  have h1 : astarLoop gCE "G" 11
      { openSet := [((0 : EReal), 0, "S")], counter := 1,
        gScore := [("S", (0 : EReal))], fScore := [("S", euclidean gCE "S" "G")],
        cameFrom := [], closed := [] } =
    astarLoop gCE "G" 10
      { openSet := [((0 : EReal) + (((10 : ℚ) : ℝ) : EReal) + euclidean gCE "G" "G", 1, "G"),
          ((0 : EReal) + (((1 : ℚ) : ℝ) : EReal) + euclidean gCE "A" "G", 2, "A")],
        counter := 3,
        gScore := [("S", (0 : EReal)), ("G", (0 : EReal) + (((10 : ℚ) : ℝ) : EReal)),
          ("A", (0 : EReal) + (((1 : ℚ) : ℝ) : EReal))],
        fScore := [("S", euclidean gCE "S" "G"),
          ("G", (0 : EReal) + (((10 : ℚ) : ℝ) : EReal) + euclidean gCE "G" "G"),
          ("A", (0 : EReal) + (((1 : ℚ) : ℝ) : EReal) + euclidean gCE "A" "G")],
        cameFrom := [("G", "S"), ("A", "S")], closed := ["S"] } := rfl
  have hpop2 : popMin
      [((0 : EReal) + (((10 : ℚ) : ℝ) : EReal) + euclidean gCE "G" "G", 1, "G"),
       ((0 : EReal) + (((1 : ℚ) : ℝ) : EReal) + euclidean gCE "A" "G", 2, "A")] =
    some (((0 : EReal) + (((10 : ℚ) : ℝ) : EReal) + euclidean gCE "G" "G", 1, "G"),
      [((0 : EReal) + (((1 : ℚ) : ℝ) : EReal) + euclidean gCE "A" "G", 2, "A")]) := by
    rw [popMin]
    rw [show popMin [((0 : EReal) + (((1 : ℚ) : ℝ) : EReal) + euclidean gCE "A" "G", 2, "A")] =
      some (((0 : EReal) + (((1 : ℚ) : ℝ) : EReal) + euclidean gCE "A" "G", 2, "A"), []) from rfl]
    dsimp only
    rw [if_pos gCE_heapLe]
  have h2 : astarLoop gCE "G" 10
      { openSet := [((0 : EReal) + (((10 : ℚ) : ℝ) : EReal) + euclidean gCE "G" "G", 1, "G"),
          ((0 : EReal) + (((1 : ℚ) : ℝ) : EReal) + euclidean gCE "A" "G", 2, "A")],
        counter := 3,
        gScore := [("S", (0 : EReal)), ("G", (0 : EReal) + (((10 : ℚ) : ℝ) : EReal)),
          ("A", (0 : EReal) + (((1 : ℚ) : ℝ) : EReal))],
        fScore := [("S", euclidean gCE "S" "G"),
          ("G", (0 : EReal) + (((10 : ℚ) : ℝ) : EReal) + euclidean gCE "G" "G"),
          ("A", (0 : EReal) + (((1 : ℚ) : ℝ) : EReal) + euclidean gCE "A" "G")],
        cameFrom := [("G", "S"), ("A", "S")], closed := ["S"] } =
      some (some ["S", "G"]) := by
    rw [astarLoop, hpop2]
    dsimp only
    rw [if_neg (show ("G" : String) ∉ ["S"] by decide), if_pos rfl]
    rfl
  show (match astarLoop gCE "G" (astarFuel gCE)
      { openSet := [((0 : EReal), 0, "S")], counter := 1,
        gScore := [("S", (0 : EReal))], fScore := [("S", euclidean gCE "S" "G")],
        cameFrom := [], closed := [] } with
    | some r => r
    | none => none) = some ["S", "G"]
  rw [show astarFuel gCE = 11 from rfl, h1, h2]

theorem gCE_cost_SG : pathCost gCE ["S", "G"] = ((10 : ℝ) : EReal) := by
  show edgeWeight gCE "S" "G" + pathCost gCE ["G"] = ((10 : ℝ) : EReal)
  rw [show edgeWeight gCE "S" "G" = (((10 : ℚ) : ℝ) : EReal) from rfl,
    show pathCost gCE ["G"] = 0 from rfl]
  norm_cast

theorem gCE_path_SAG : isPathFrom gCE "S" "G" ["S", "A", "G"] := by
  refine ⟨rfl, rfl, ?_⟩
  refine List.chain'_cons.mpr ⟨⟨1, ⟨"S", 10, 0, [("G", 10), ("A", 1)]⟩, rfl, rfl⟩, ?_⟩
  refine List.chain'_cons.mpr ⟨⟨1/2, ⟨"A", 11, 0, [("S", 1), ("G", 1/2)]⟩, rfl, rfl⟩, ?_⟩
  exact List.chain'_singleton _

theorem gCE_shortest_le : shortestCost gCE "S" "G" ≤ ((3/2 : ℝ) : EReal) := by
  refine sInf_le ⟨["S", "A", "G"], gCE_path_SAG, ?_⟩
  show edgeWeight gCE "S" "A" + (edgeWeight gCE "A" "G" + pathCost gCE ["G"]) =
    ((3/2 : ℝ) : EReal)
  rw [show edgeWeight gCE "S" "A" = (((1 : ℚ) : ℝ) : EReal) from rfl,
    show edgeWeight gCE "A" "G" = (((1/2 : ℚ) : ℝ) : EReal) from rfl,
    show pathCost gCE ["G"] = 0 from rfl]
  norm_cast
  norm_num

/-- C2 (counterexample to the claim as stated): in `gCE` the nodes `S`
and `G` are connected (the path `S-A-G` has cost 3/2), yet `astar`
returns the direct edge `[S, G]` of cost 10 — strictly above the true
shortest-path cost, because the Euclidean heuristic overestimates the
cheap edge `A–G`. -/
theorem c2_counterexample :
    astar gCE "S" "G" = some ["S", "G"] ∧
      isPathFrom gCE "S" "G" ["S", "A", "G"] ∧
      pathCost gCE ["S", "G"] ≠ shortestCost gCE "S" "G" := by
  refine ⟨astar_gCE_run, gCE_path_SAG, ?_⟩
  intro heq
  rw [gCE_cost_SG] at heq
  have h1 : ((10 : ℝ) : EReal) ≤ ((3/2 : ℝ) : EReal) :=
    heq ▸ gCE_shortest_le
  rw [EReal.coe_le_coe_iff] at h1
  linarith

/-! ### Claim C6 (full-path expansion) -/

theorem segFor_head (g : Graph) (a b : String) : (segFor g a b).head? = some a := by
  unfold segFor
  cases h : astar g a b with
  | none => rfl
  | some p => exact (astar_isPathFrom h).1

theorem segFor_last (g : Graph) (a b : String) : (segFor g a b).getLast? = some b := by
  unfold segFor
  cases h : astar g a b with
  | none => rfl
  | some p => exact (astar_isPathFrom h).2.1

theorem segFor_ne_nil (g : Graph) (a b : String) : segFor g a b ≠ [] := by
  intro h
  have := segFor_head g a b
  rw [h] at this
  exact absurd this (by simp)

theorem getLast?_append_right {A B : List String} (h : B ≠ []) :
    (A ++ B).getLast? = B.getLast? := by
  induction A with
  | nil => rfl
  | cons a A ih =>
      rw [List.cons_append]
      cases hAB : A ++ B with
      | nil => exact absurd (List.append_eq_nil.mp hAB).2 h
      | cons y ys =>
          rw [List.getLast?_cons_cons, ← hAB, ih]

theorem getLast?_append_tail {s F : List String} {y : String}
    (hF : F.head? = some y) (hs : s.getLast? = some y) :
    (s ++ F.tail).getLast? = F.getLast? := by
  cases F with
  | nil => simp at hF
  | cons z ys =>
      simp only [List.head?_cons, Option.some.injEq] at hF
      subst hF
      cases ys with
      | nil =>
          show (s ++ []).getLast? = _
          rw [List.append_nil, hs]
          rfl
      | cons z' ys' =>
          show (s ++ (z' :: ys')).getLast? = _
          rw [getLast?_append_right (by simp), List.getLast?_cons_cons]

theorem segsOf_cons₂ (g : Graph) (a b : String) (r : List String) :
    segsOf g (a :: b :: r) = segFor g a b :: segsOf g (b :: r) := rfl

theorem segsOf_chain (g : Graph) : ∀ (r : List String),
    List.Chain' (fun s1 s2 => s1.getLast? = s2.head?) (segsOf g r) := by
  intro r
  induction r with
  | nil => exact List.chain'_nil
  | cons a r ih =>
      cases r with
      | nil => exact List.chain'_nil
      | cons b rest =>
          rw [segsOf_cons₂]
          refine List.chain'_cons'.mpr ⟨?_, ih⟩
          intro y hy
          cases rest with
          | nil => simp [segsOf] at hy
          | cons c rest' =>
              rw [segsOf_cons₂] at hy
              simp only [List.head?_cons, Option.mem_def, Option.some.injEq] at hy
              subst hy
              rw [segFor_last, segFor_head]

theorem flattenSegs_segsOf_head (g : Graph) (a b : String) (r : List String) :
    (flattenSegs (segsOf g (a :: b :: r))).head? = some a := by
  rw [segsOf_cons₂]
  show (segFor g a b ++ ((segsOf g (b :: r)).map List.tail).flatten).head? = some a
  exact head?_append_left (segFor_head g a b)

theorem flattenSegs_cons_tail {s0 s1 : List String} {rest : List (List String)}
    (h : s1 ≠ []) :
    flattenSegs (s0 :: s1 :: rest) = s0 ++ (flattenSegs (s1 :: rest)).tail := by
  cases s1 with
  | nil => exact absurd rfl h
  | cons u us => rfl

theorem flattenSegs_segsOf_last (g : Graph) : ∀ (r : List String) (a : String), r ≠ [] →
    (flattenSegs (segsOf g (a :: r))).getLast? = r.getLast? := by
  intro r
  induction r with
  | nil => intro a h; exact absurd rfl h
  | cons b r2 ih =>
      intro a _
      cases r2 with
      | nil =>
          show (segFor g a b ++ (([] : List (List String)).map List.tail).flatten).getLast? = _
          rw [show ((([] : List (List String)).map List.tail).flatten : List String) = []
            from rfl, List.append_nil]
          exact segFor_last g a b
      | cons c r3 =>
          rw [segsOf_cons₂ g a b (c :: r3), segsOf_cons₂ g b c r3,
            flattenSegs_cons_tail (segFor_ne_nil g b c)]
          have hFhead : (flattenSegs (segFor g b c :: segsOf g (c :: r3))).head? = some b := by
            rw [← segsOf_cons₂ g b c r3]
            exact flattenSegs_segsOf_head g b c r3
          rw [getLast?_append_tail hFhead (segFor_last g a b), ← segsOf_cons₂ g b c r3]
          rw [ih b (by simp)]
          rw [List.getLast?_cons_cons]

theorem lookupA_map_snd {α β : Type} (f : α → β) :
    ∀ (l : List (String × α)) (k : String),
    lookupA (l.map (fun p => (p.1, f p.2))) k = (lookupA l k).map f := by
  intro l k
  induction l with
  | nil => rfl
  | cons p rest ih =>
      obtain ⟨k', v⟩ := p
      by_cases h : k' = k
      · simp [lookupA, h]
      · simp [lookupA, h, ih]

/-- C6: on a depot-framed solution, every per-vehicle full path produced by
`compute_full_paths_as_single_list` is the flattening of its route's expanded
segments in which every segment after the first drops its first element;
consecutive segments share that dropped endpoint (last of one = head of the
next), so no junction is duplicated; and the path starts and ends at the
depot location. -/
theorem c6_full_paths_junctions (g : Graph) (routes : List (String × List String))
    (depot_id : String)
    (hdf : ∀ t r, lookupA routes t = some r → DepotFramed depot_id r)
    (t : String) (path : List String)
    (hp : lookupA (compute_full_paths_as_single_list g routes) t = some path) :
    ∃ r, lookupA routes t = some r ∧
      path = flattenSegs (segsOf g r) ∧
      List.Chain' (fun s1 s2 => s1.getLast? = s2.head?) (segsOf g r) ∧
      path.head? = some depot_id ∧ path.getLast? = some depot_id := by
  have hmap : compute_full_paths_as_single_list g routes
      = routes.map (fun p => (p.1, flattenSegs (segsOf g p.2))) := by
    unfold compute_full_paths_as_single_list compute_full_paths
    rw [List.map_map]
    rfl
  have hl : lookupA (routes.map (fun p => (p.1, flattenSegs (segsOf g p.2)))) t
      = (lookupA routes t).map (fun r => flattenSegs (segsOf g r)) :=
    lookupA_map_snd (fun r => flattenSegs (segsOf g r)) routes t
  rw [hmap, hl] at hp
  cases hr : lookupA routes t with
  | none => rw [hr] at hp; exact absurd hp (by simp)
  | some r =>
      rw [hr] at hp
      have hpath : flattenSegs (segsOf g r) = path := by
        simpa using hp
      obtain ⟨int, hre, hd⟩ := hdf t r hr
      refine ⟨r, rfl, hpath.symm, segsOf_chain g r, ?_, ?_⟩
      · rw [← hpath, hre]
        cases int with
        | nil => exact flattenSegs_segsOf_head g depot_id depot_id []
        | cons i is => exact flattenSegs_segsOf_head g depot_id i (is ++ [depot_id])
      · rw [← hpath, hre, List.cons_append,
          flattenSegs_segsOf_last g (int ++ [depot_id]) depot_id (by simp),
          getLast?_append_right (by simp)]
        rfl

/-- C6 witness: a depot-framed single-route solution over the empty graph
(all segments take the two-element fallback form). -/
theorem c6_witness :
    (∀ t r, lookupA [("T1", ["D", "A", "D"])] t = some r → DepotFramed "D" r) ∧
    lookupA (compute_full_paths_as_single_list Graph.empty [("T1", ["D", "A", "D"])]) "T1"
      = some ["D", "A", "D"] ∧
    ∃ r, lookupA [("T1", ["D", "A", "D"])] "T1" = some r ∧
      ["D", "A", "D"] = flattenSegs (segsOf Graph.empty r) ∧
      List.Chain' (fun s1 s2 => s1.getLast? = s2.head?) (segsOf Graph.empty r) ∧
      (["D", "A", "D"] : List String).head? = some "D" ∧
      (["D", "A", "D"] : List String).getLast? = some "D" := by
  have hdf : ∀ t r, lookupA [("T1", ["D", "A", "D"])] t = some r → DepotFramed "D" r := by
    intro t r h
    simp only [lookupA] at h
    by_cases ht : ("T1" : String) = t
    · rw [if_pos ht] at h
      obtain rfl := Option.some.inj h
      exact ⟨["A"], rfl, by simp⟩
    · rw [if_neg ht] at h
      exact absurd h (by simp)
  have hfp : lookupA (compute_full_paths_as_single_list Graph.empty
      [("T1", ["D", "A", "D"])]) "T1" = some ["D", "A", "D"] := by
    have hDA : astar Graph.empty "D" "A" = none := by
      have h1 : lookupA Graph.empty.nodes "D" = none ∨ lookupA Graph.empty.nodes "A" = none :=
        Or.inl rfl
      rw [astar, if_pos h1]
    have hAD : astar Graph.empty "A" "D" = none := by
      have h1 : lookupA Graph.empty.nodes "A" = none ∨ lookupA Graph.empty.nodes "D" = none :=
        Or.inl rfl
      rw [astar, if_pos h1]
    unfold compute_full_paths_as_single_list compute_full_paths segsOf segFor
    simp [lookupA, hDA, hAD, flattenSegs]
  exact ⟨hdf, hfp, c6_full_paths_junctions Graph.empty [("T1", ["D", "A", "D"])] "D" hdf
    "T1" ["D", "A", "D"] hfp⟩

theorem length_tails_flatten : ∀ (rest : List (List String)),
    (∀ s ∈ rest, s.length = 2) → ((rest.map List.tail).flatten).length = rest.length := by
  intro rest
  induction rest with
  | nil => intro _; rfl
  | cons s rs ih =>
      intro h
      rw [List.map_cons, List.flatten_cons, List.length_append,
        ih (fun x hx => h x (by simp [hx]))]
      have hs : s.tail.length = 1 := by
        rw [List.length_tail, h s (by simp)]
      rw [hs, List.length_cons]
      omega

theorem length_flattenSegs_all2 (segs : List (List String))
    (h : ∀ s ∈ segs, s.length = 2) (hne : segs ≠ []) :
    (flattenSegs segs).length = segs.length + 1 := by
  cases segs with
  | nil => exact absurd rfl hne
  | cons s rest =>
      show (s ++ (rest.map List.tail).flatten).length = rest.length + 1 + 1
      rw [List.length_append, h s (by simp),
        length_tails_flatten rest (fun x hx => h x (by simp [hx]))]
      omega

theorem length_segsOf (g : Graph) (r : List String) :
    (segsOf g r).length = min r.length r.tail.length := by
  unfold segsOf
  rw [List.length_map, List.length_zip]

theorem stops_route_eq {g : Graph} {d : String} {r : List String}
    (hdf : DepotFramed d r) (hseg : ∀ s ∈ segsOf g r, s.length = 2) :
    ((flattenSegs (segsOf g r)).length : ℤ) - 2
      = ((r.filter (fun n => n ≠ d)).length : ℤ) := by
  obtain ⟨int, hre, hd, hcount⟩ := countStops_of_depotFramed hdf
  have hlen : (segsOf g r).length = int.length + 1 := by
    rw [length_segsOf, hre]
    simp
  have hne : segsOf g r ≠ [] := by
    intro hc
    rw [hc] at hlen
    simp at hlen
  rw [length_flattenSegs_all2 (segsOf g r) hseg hne, hlen,
    show (r.filter (fun n => n ≠ d)).length = countStops d r from rfl, hcount]
  push_cast
  omega

/-- C9 (amended): the two evaluate variants always agree on the vehicle
count; they agree on the stop count whenever the solution is depot-framed
and every expanded segment of every route has exactly two elements (no A*
segment inserts intermediate junctions) — in general `evaluate_routes`
counts intermediate junctions of the expanded paths as stops while
`evaluate_routes_simple` counts only the non-depot route entries. -/
theorem c9_evaluate_agree (g : Graph) (depot_id : String)
    (routes : List (String × List String)) :
    (evaluate_routes g (compute_full_paths_as_single_list g routes)).num_trucks
      = (evaluate_routes_simple g depot_id routes).num_trucks ∧
    ((∀ p ∈ routes, DepotFramed depot_id p.2) →
      (∀ p ∈ routes, ∀ s ∈ segsOf g p.2, s.length = 2) →
      (evaluate_routes g (compute_full_paths_as_single_list g routes)).num_stops
        = (evaluate_routes_simple g depot_id routes).num_stops) := by
  have hmap : compute_full_paths_as_single_list g routes
      = routes.map (fun p => (p.1, flattenSegs (segsOf g p.2))) := by
    unfold compute_full_paths_as_single_list compute_full_paths
    rw [List.map_map]
    rfl
  constructor
  · show (compute_full_paths_as_single_list g routes).length = routes.length
    rw [hmap, List.length_map]
  · intro hdf hseg
    show ((compute_full_paths_as_single_list g routes).map
        (fun p => (p.2.length : ℤ) - 2)).sum
      = (routes.map (fun p => ((p.2.filter (fun n => n ≠ depot_id)).length : ℤ))).sum
    rw [hmap, List.map_map]
    congr 1
    refine List.map_congr_left ?_
    intro p hp
    exact stops_route_eq (hdf p hp) (hseg p hp)

/-- C9 counterexample: with the depot registered in the graph, the
depot-framed route `["D", "D"]` expands through the start-equals-goal
guard of `astar` to the single-element path `["D"]`, so `evaluate_routes`
reports `len(path) - 2 = -1` stops while `evaluate_routes_simple` reports
`0`: the two variants do not agree on every depot-framed solution. -/
theorem c9_counterexample :
    DepotFramed "D" ["D", "D"] ∧
    (evaluate_routes (add_node Graph.empty "D" 0 0)
        (compute_full_paths_as_single_list (add_node Graph.empty "D" 0 0)
          [("T1", ["D", "D"])])).num_stops = -1 ∧
    (evaluate_routes_simple (add_node Graph.empty "D" 0 0) "D"
        [("T1", ["D", "D"])]).num_stops = 0 :=
  ⟨⟨[], rfl, by simp⟩, rfl, rfl⟩

/-- C9 witness: a depot-framed solution over the empty graph, where every
expanded segment is the two-element fallback. -/
theorem c9_witness :
    (∀ p ∈ [("T1", ["D", "A", "D"])], DepotFramed "D" p.2) ∧
    (∀ p ∈ [("T1", ["D", "A", "D"])], ∀ s ∈ segsOf Graph.empty p.2, s.length = 2) ∧
    ((evaluate_routes Graph.empty (compute_full_paths_as_single_list Graph.empty
        [("T1", ["D", "A", "D"])])).num_trucks
      = (evaluate_routes_simple Graph.empty "D" [("T1", ["D", "A", "D"])]).num_trucks ∧
     (evaluate_routes Graph.empty (compute_full_paths_as_single_list Graph.empty
        [("T1", ["D", "A", "D"])])).num_stops
      = (evaluate_routes_simple Graph.empty "D" [("T1", ["D", "A", "D"])]).num_stops) := by
  have h1 : ∀ p ∈ [("T1", ["D", "A", "D"])], DepotFramed "D" p.2 := by
    intro p hp
    simp only [List.mem_singleton] at hp
    subst hp
    exact ⟨["A"], rfl, by simp⟩
  have h2 : ∀ p ∈ [("T1", ["D", "A", "D"])], ∀ s ∈ segsOf Graph.empty p.2, s.length = 2 := by
    intro p hp s hs
    simp only [List.mem_singleton] at hp
    subst hp
    have hsegs : segsOf Graph.empty ["D", "A", "D"] = [["D", "A"], ["A", "D"]] := by
      have hDA : astar Graph.empty "D" "A" = none := by
        have h0 : lookupA Graph.empty.nodes "D" = none ∨
            lookupA Graph.empty.nodes "A" = none := Or.inl rfl
        rw [astar, if_pos h0]
      have hAD : astar Graph.empty "A" "D" = none := by
        have h0 : lookupA Graph.empty.nodes "A" = none ∨
            lookupA Graph.empty.nodes "D" = none := Or.inl rfl
        rw [astar, if_pos h0]
      unfold segsOf segFor
      simp [hDA, hAD]
    rw [hsegs] at hs
    simp only [List.mem_cons, List.mem_singleton, List.not_mem_nil, or_false] at hs
    rcases hs with h | h <;> subst h <;> rfl
  exact ⟨h1, h2, (c9_evaluate_agree Graph.empty "D" [("T1", ["D", "A", "D"])]).1,
    (c9_evaluate_agree Graph.empty "D" [("T1", ["D", "A", "D"])]).2 h1 h2⟩

theorem c1_euclid_ds1 : euclidean gC1 "depot" "s1" = ((1 : ℝ) : EReal) := by
  rw [euclidean_eval gC1 "depot" "s1" ⟨"depot", 0, 0, []⟩ ⟨"s1", 1, 0, []⟩ rfl rfl]
  rw [show ((((0 : ℚ) : ℝ) - ((1 : ℚ) : ℝ)) * (((0 : ℚ) : ℝ) - ((1 : ℚ) : ℝ)) +
      (((0 : ℚ) : ℝ) - ((0 : ℚ) : ℝ)) * (((0 : ℚ) : ℝ) - ((0 : ℚ) : ℝ)) : ℝ) =
    (1 : ℝ) by push_cast; ring]
  rw [Real.sqrt_one]

theorem c1_euclid_ds2 : euclidean gC1 "depot" "s2" = ((2 : ℝ) : EReal) := by
  rw [euclidean_eval gC1 "depot" "s2" ⟨"depot", 0, 0, []⟩ ⟨"s2", 2, 0, []⟩ rfl rfl]
  rw [show ((((0 : ℚ) : ℝ) - ((2 : ℚ) : ℝ)) * (((0 : ℚ) : ℝ) - ((2 : ℚ) : ℝ)) +
      (((0 : ℚ) : ℝ) - ((0 : ℚ) : ℝ)) * (((0 : ℚ) : ℝ) - ((0 : ℚ) : ℝ)) : ℝ) =
    ((2 : ℝ) ^ 2) by push_cast; ring]
  rw [Real.sqrt_sq (by norm_num)]

theorem c1_euclid_ds3 : euclidean gC1 "depot" "s3" = ((3 : ℝ) : EReal) := by
  rw [euclidean_eval gC1 "depot" "s3" ⟨"depot", 0, 0, []⟩ ⟨"s3", 3, 0, []⟩ rfl rfl]
  rw [show ((((0 : ℚ) : ℝ) - ((3 : ℚ) : ℝ)) * (((0 : ℚ) : ℝ) - ((3 : ℚ) : ℝ)) +
      (((0 : ℚ) : ℝ) - ((0 : ℚ) : ℝ)) * (((0 : ℚ) : ℝ) - ((0 : ℚ) : ℝ)) : ℝ) =
    ((3 : ℝ) ^ 2) by push_cast; ring]
  rw [Real.sqrt_sq (by norm_num)]

theorem c1_one_lt_top : ((1 : ℝ) : EReal) < ⊤ := EReal.coe_lt_top 1

theorem c1_two_lt_top : ((2 : ℝ) : EReal) < ⊤ := EReal.coe_lt_top 2

theorem c1_not_21 : ¬ (((2 : ℝ) : EReal) < ((1 : ℝ) : EReal)) := by
  rw [EReal.coe_lt_coe_iff]
  norm_num

theorem c1_not_31 : ¬ (((3 : ℝ) : EReal) < ((1 : ℝ) : EReal)) := by
  rw [EReal.coe_lt_coe_iff]
  norm_num

theorem c1_not_32 : ¬ (((3 : ℝ) : EReal) < ((2 : ℝ) : EReal)) := by
  rw [EReal.coe_lt_coe_iff]
  norm_num

theorem c1_sb1 : selectBest gC1 (tpsDict tpsC1) "depot" 10 ["s1", "s2", "s3"] (⊤, none)
    = (((1 : ℝ) : EReal), some "s1") := by
  have st1 : selectBest gC1 (tpsDict tpsC1) "depot" 10 ["s1", "s2", "s3"] (⊤, none)
      = if euclidean gC1 "depot" "s1" < (⊤ : EReal) then
          selectBest gC1 (tpsDict tpsC1) "depot" 10 ["s2", "s3"]
            (euclidean gC1 "depot" "s1", some "s1")
        else selectBest gC1 (tpsDict tpsC1) "depot" 10 ["s2", "s3"] (⊤, none) := rfl
  rw [st1, c1_euclid_ds1, if_pos c1_one_lt_top]
  have st2 : selectBest gC1 (tpsDict tpsC1) "depot" 10 ["s2", "s3"]
        (((1 : ℝ) : EReal), some "s1")
      = if euclidean gC1 "depot" "s2" < ((1 : ℝ) : EReal) then
          selectBest gC1 (tpsDict tpsC1) "depot" 10 ["s3"]
            (euclidean gC1 "depot" "s2", some "s2")
        else selectBest gC1 (tpsDict tpsC1) "depot" 10 ["s3"]
          (((1 : ℝ) : EReal), some "s1") := rfl
  rw [st2, c1_euclid_ds2, if_neg c1_not_21]
  have st3 : selectBest gC1 (tpsDict tpsC1) "depot" 10 ["s3"]
        (((1 : ℝ) : EReal), some "s1")
      = if euclidean gC1 "depot" "s3" < ((1 : ℝ) : EReal) then
          selectBest gC1 (tpsDict tpsC1) "depot" 10 []
            (euclidean gC1 "depot" "s3", some "s3")
        else selectBest gC1 (tpsDict tpsC1) "depot" 10 []
          (((1 : ℝ) : EReal), some "s1") := rfl
  rw [st3, c1_euclid_ds3, if_neg c1_not_31]
  rfl

theorem c1_sb2 : selectBest gC1 (tpsDict tpsC1) "depot" 10 ["s2", "s3"] (⊤, none)
    = (((2 : ℝ) : EReal), some "s2") := by
  have st1 : selectBest gC1 (tpsDict tpsC1) "depot" 10 ["s2", "s3"] (⊤, none)
      = if euclidean gC1 "depot" "s2" < (⊤ : EReal) then
          selectBest gC1 (tpsDict tpsC1) "depot" 10 ["s3"]
            (euclidean gC1 "depot" "s2", some "s2")
        else selectBest gC1 (tpsDict tpsC1) "depot" 10 ["s3"] (⊤, none) := rfl
  rw [st1, c1_euclid_ds2, if_pos c1_two_lt_top]
  have st2 : selectBest gC1 (tpsDict tpsC1) "depot" 10 ["s3"]
        (((2 : ℝ) : EReal), some "s2")
      = if euclidean gC1 "depot" "s3" < ((2 : ℝ) : EReal) then
          selectBest gC1 (tpsDict tpsC1) "depot" 10 []
            (euclidean gC1 "depot" "s3", some "s3")
        else selectBest gC1 (tpsDict tpsC1) "depot" 10 []
          (((2 : ℝ) : EReal), some "s2") := rfl
  rw [st2, c1_euclid_ds3, if_neg c1_not_32]
  rfl

theorem c1_tl1 : truckLoop gC1 (tpsDict tpsC1) 3 "depot" 10 ["s1", "s2", "s3"] []
    = (["s1"], ["s2", "s3"]) := by
  have h : truckLoop gC1 (tpsDict tpsC1) 3 "depot" 10 ["s1", "s2", "s3"] []
      = match (selectBest gC1 (tpsDict tpsC1) "depot" 10 ["s1", "s2", "s3"] (⊤, none)).2 with
        | none => (([] : List String), ["s1", "s2", "s3"])
        | some best =>
            truckLoop gC1 (tpsDict tpsC1) 2 best
              (10 - ((lookupA (tpsDict tpsC1) best).getD ⟨"", "", 0⟩).demand)
              (["s1", "s2", "s3"].erase best) ([] ++ [best]) := rfl
  rw [h, c1_sb1]
  show truckLoop gC1 (tpsDict tpsC1) 2 "s1"
      (10 - ((lookupA (tpsDict tpsC1) "s1").getD ⟨"", "", 0⟩).demand)
      (["s1", "s2", "s3"].erase "s1") ([] ++ ["s1"]) = (["s1"], ["s2", "s3"])
  rw [show ((lookupA (tpsDict tpsC1) "s1").getD ⟨"", "", 0⟩).demand = 6 from rfl,
    show (10 - 6 : ℚ) = 4 from by norm_num]
  rfl

theorem c1_tl2 : truckLoop gC1 (tpsDict tpsC1) 2 "depot" 10 ["s2", "s3"] []
    = (["s2"], ["s3"]) := by
  have h : truckLoop gC1 (tpsDict tpsC1) 2 "depot" 10 ["s2", "s3"] []
      = match (selectBest gC1 (tpsDict tpsC1) "depot" 10 ["s2", "s3"] (⊤, none)).2 with
        | none => (([] : List String), ["s2", "s3"])
        | some best =>
            truckLoop gC1 (tpsDict tpsC1) 1 best
              (10 - ((lookupA (tpsDict tpsC1) best).getD ⟨"", "", 0⟩).demand)
              (["s2", "s3"].erase best) ([] ++ [best]) := rfl
  rw [h, c1_sb2]
  show truckLoop gC1 (tpsDict tpsC1) 1 "s2"
      (10 - ((lookupA (tpsDict tpsC1) "s2").getD ⟨"", "", 0⟩).demand)
      (["s2", "s3"].erase "s2") ([] ++ ["s2"]) = (["s2"], ["s3"])
  rw [show ((lookupA (tpsDict tpsC1) "s2").getD ⟨"", "", 0⟩).demand = 6 from rfl,
    show (10 - 6 : ℚ) = 4 from by norm_num]
  rfl

theorem c1_greedy_eval : greedy_initial_solution gC1 tpsC1 "depot" trucksC1
    = [("t1", ["s1", "s3"]), ("t2", ["s2"])] := by
  have h0 : greedy_initial_solution gC1 tpsC1 "depot" trucksC1
      = (fallbackAssign (tpsDict tpsC1) trucksC1
          (List.foldl (greedyStep gC1 (tpsDict tpsC1) [("t1", (10 : ℚ)), ("t2", 10)] "depot")
            (["s1", "s2", "s3"], [("t1", []), ("t2", [])]) trucksC1).1
          [("t1", (10 : ℚ)), ("t2", 10)]
          (List.foldl (greedyStep gC1 (tpsDict tpsC1) [("t1", (10 : ℚ)), ("t2", 10)] "depot")
            (["s1", "s2", "s3"], [("t1", []), ("t2", [])]) trucksC1).2).2 := rfl
  have hstep1 : greedyStep gC1 (tpsDict tpsC1) [("t1", (10 : ℚ)), ("t2", 10)] "depot"
      (["s1", "s2", "s3"], [("t1", []), ("t2", [])]) ⟨"t1", 10⟩
      = (["s2", "s3"], [("t1", ["s1"]), ("t2", [])]) := by
    have e : greedyStep gC1 (tpsDict tpsC1) [("t1", (10 : ℚ)), ("t2", 10)] "depot"
        (["s1", "s2", "s3"], [("t1", []), ("t2", [])]) ⟨"t1", 10⟩
        = ((truckLoop gC1 (tpsDict tpsC1) 3 "depot" 10 ["s1", "s2", "s3"] []).2,
           modifyA [("t1", ([] : List String)), ("t2", [])] "t1"
             (fun r => r ++ (truckLoop gC1 (tpsDict tpsC1) 3 "depot" 10 ["s1", "s2", "s3"] []).1)) := rfl
    rw [e, c1_tl1]
    rfl
  have hstep2 : greedyStep gC1 (tpsDict tpsC1) [("t1", (10 : ℚ)), ("t2", 10)] "depot"
      (["s2", "s3"], [("t1", ["s1"]), ("t2", [])]) ⟨"t2", 10⟩
      = (["s3"], [("t1", ["s1"]), ("t2", ["s2"])]) := by
    have e : greedyStep gC1 (tpsDict tpsC1) [("t1", (10 : ℚ)), ("t2", 10)] "depot"
        (["s2", "s3"], [("t1", ["s1"]), ("t2", [])]) ⟨"t2", 10⟩
        = ((truckLoop gC1 (tpsDict tpsC1) 2 "depot" 10 ["s2", "s3"] []).2,
           modifyA [("t1", ["s1"]), ("t2", ([] : List String))] "t2"
             (fun r => r ++ (truckLoop gC1 (tpsDict tpsC1) 2 "depot" 10 ["s2", "s3"] []).1)) := rfl
    rw [e, c1_tl2]
    rfl
  rw [h0, show trucksC1 = [⟨"t1", 10⟩, ⟨"t2", 10⟩] from rfl,
    List.foldl_cons, hstep1, List.foldl_cons, hstep2, List.foldl_nil]
  rfl

/-- C1: the claimed capacity guarantee fails on the code.  On a graph of a
depot and three collinear sites of demand 6 each, with two trucks of
capacity 10 (total demand 18 ≤ total capacity 20, every site demand 6 ≤
every truck capacity 10), `greedy_initial_solution` assigns `["s1", "s3"]`
to truck `t1`: demand 12 exceeds every truck's capacity.  The fallback
pass (greedy_init.py lines 96-105) consults `truck_remaining_capacity`,
which the main loop never updates, so the leftover site `s3` is added to
the already-loaded truck `t1`. -/
theorem c1_greedy_capacity_violation :
    totalDemand tpsC1 ≤ totalCapacity trucksC1 ∧
    (∀ t ∈ tpsC1, ∀ tr ∈ trucksC1, t.demand ≤ tr.capacity) ∧
    lookupA (greedy_initial_solution gC1 tpsC1 "depot" trucksC1) "t1" = some ["s1", "s3"] ∧
    routeDemand tpsC1 ["s1", "s3"] = 12 ∧
    ∀ tr ∈ trucksC1, tr.capacity < 12 := by
  refine ⟨?_, ?_, ?_, ?_, ?_⟩
  · norm_num [totalDemand, totalCapacity, tpsC1, trucksC1]
  · intro t ht tr htr
    simp only [tpsC1, List.mem_cons, List.not_mem_nil, or_false] at ht
    simp only [trucksC1, List.mem_cons, List.not_mem_nil, or_false] at htr
    rcases ht with h | h | h <;> rcases htr with h2 | h2 <;> subst h <;> subst h2 <;> norm_num
  · rw [c1_greedy_eval]
    rfl
  · rw [show routeDemand tpsC1 ["s1", "s3"] = ((6 : ℚ) + (6 + 0)) from rfl]
    norm_num
  · intro tr htr
    simp only [trucksC1, List.mem_cons, List.not_mem_nil, or_false] at htr
    rcases htr with h | h <;> subst h <;> norm_num
